import Mathlib

/-!
Verification of the nobifinder usage-classification engine

Shallow embedding, in Lean 4, of the core of `nobifinder.py`: the lexical
preprocessor `strip_comments_and_strings`, the pattern match engine
(`build_patterns`, `build_member_patterns`, `scan_file_for_usage`,
`scan_file_for_member_usage`), target resolution (`parse_target_metadata`,
`parse_target_members`) and the hit-list shape of the Tree-sitter engine
(`AstEngineKotlin.scan_file_ast`).

Source text is modelled as `List Char`.  The model fixes the following
conventions, documented once here:
* line breaks are `'\n'` only (Python `str.splitlines` additionally splits
  on `\r`, `\v`, `\f` and some unicode characters; the scanned sources in
  scope use `\n`),
* Python regex classes `\s`, `\w`, `\b` are modelled by their ASCII
  semantics,
* Python `set` iteration order is unspecified; where the source iterates
  over a set (`typed_vars`) the model uses first-occurrence order.
-/

deriving instance DecidableEq for Except

namespace Nobi

/-- ASCII whitespace, the ASCII part of Python's `\s` and `str.strip`. -/
def isSpaceCh (c : Char) : Bool :=
  c = ' ' || c = '\t' || c = '\n' || c = '\x0d' || c = '\x0b' || c = '\x0c'

/-- ASCII word character, the ASCII part of Python's `\w` (used by `\b`). -/
def isWordCh (c : Char) : Bool :=
  ('a' ≤ c && c ≤ 'z') || ('A' ≤ c && c ≤ 'Z') || ('0' ≤ c && c ≤ '9') || c = '_'

/-- First character of a Python identifier class `[a-zA-Z_]`. -/
def isAlphaU (c : Char) : Bool :=
  ('a' ≤ c && c ≤ 'z') || ('A' ≤ c && c ≤ 'Z') || c = '_'

/-- `str.splitlines` for `'\n'`-separated text: no trailing empty line for a
text ending in `'\n'`, and `[]` for the empty text. -/
def splitlines : List Char → List (List Char)
  | [] => []
  | '\n' :: rest => [] :: splitlines rest
  | c :: rest =>
    match splitlines rest with
    | [] => [[c]]
    | l :: ls => (c :: l) :: ls

/-- Number of line breaks in a text. -/
def countNl (cs : List Char) : Nat := cs.count '\n'

/-- Python `str.strip()`: remove leading and trailing whitespace. -/
def trimWs (cs : List Char) : List Char :=
  ((cs.dropWhile isSpaceCh).reverse.dropWhile isSpaceCh).reverse

/-! ## The lexical preprocessor (`strip_comments_and_strings`, source lines 621-679)

The source is a single `while` loop over an index with four inner skipping
loops.  It is embedded as a five-state scanner: `code` is the outer loop,
`lineC` the `//` skipping loop, `blockC` the `/* */` skipping loop, and
`dq`/`sq` the string/char-literal skipping loops.  The `blockC` inner loop
runs only while at least two characters remain (`while i < length - 1`);
with exactly one character left control returns to the outer loop on that
character, which is inlined below in the three one-character `blockC`
equations. -/

/-- Scanner state of `strip_comments_and_strings`. -/
inductive LexSt where
  | code | lineC | blockC | dq | sq
deriving DecidableEq, Repr

open LexSt in
/-- The character scan of `strip_comments_and_strings` (source lines 630-677). -/
def scan : LexSt → List Char → List Char
  | _, [] => []
  | .code, '/' :: '/' :: rest => scan .lineC rest
  | .code, '/' :: '*' :: rest => scan .blockC rest
  | .code, '"' :: rest => ' ' :: scan .dq rest
  | .code, '\'' :: rest => ' ' :: scan .sq rest
  | .code, c :: rest => c :: scan .code rest
  | .lineC, '\n' :: rest => '\n' :: scan .code rest
  | .lineC, _ :: rest => scan .lineC rest
  | .blockC, ['"'] => [' ']
  | .blockC, ['\''] => [' ']
  | .blockC, [c] => [c]
  | .blockC, '*' :: '/' :: rest => scan .code rest
  | .blockC, '\n' :: c :: rest => '\n' :: scan .blockC (c :: rest)
  | .blockC, _ :: c :: rest => scan .blockC (c :: rest)
  | .dq, '"' :: rest => scan .code rest
  | .dq, '\\' :: _ :: rest => scan .dq rest
  | .dq, _ :: rest => scan .dq rest
  | .sq, '\'' :: rest => scan .code rest
  | .sq, '\\' :: _ :: rest => scan .sq rest
  | .sq, _ :: rest => scan .sq rest

/-- `strip_comments_and_strings` (source lines 621-679). -/
def strip_comments_and_strings (cs : List Char) : List Char :=
  scan .code cs

/-- `true` iff the scan never consumes a line break inside a string or
character literal (directly or through a `\`-escape): exactly then every
input line break reappears in the output. -/
def nlSafe : LexSt → List Char → Bool
  | _, [] => true
  | .code, '/' :: '/' :: rest => nlSafe .lineC rest
  | .code, '/' :: '*' :: rest => nlSafe .blockC rest
  | .code, '"' :: rest => nlSafe .dq rest
  | .code, '\'' :: rest => nlSafe .sq rest
  | .code, _ :: rest => nlSafe .code rest
  | .lineC, '\n' :: rest => nlSafe .code rest
  | .lineC, _ :: rest => nlSafe .lineC rest
  | .blockC, ['"'] => true
  | .blockC, ['\''] => true
  | .blockC, [_] => true
  | .blockC, '*' :: '/' :: rest => nlSafe .code rest
  | .blockC, _ :: c :: rest => nlSafe .blockC (c :: rest)
  | .dq, '"' :: rest => nlSafe .code rest
  | .dq, '\n' :: _ => false
  | .dq, '\\' :: '\n' :: _ => false
  | .dq, '\\' :: _ :: rest => nlSafe .dq rest
  | .dq, _ :: rest => nlSafe .dq rest
  | .sq, '\'' :: rest => nlSafe .code rest
  | .sq, '\n' :: _ => false
  | .sq, '\\' :: '\n' :: _ => false
  | .sq, '\\' :: _ :: rest => nlSafe .sq rest
  | .sq, _ :: rest => nlSafe .sq rest

/-! ## A small regex engine

The source builds fixed patterns with `re.compile` and uses `search`,
`findall` and `finditer` on them.  The engine below implements Python
`re` semantics for exactly the constructs those patterns use: literals,
the character classes listed in `CSpec`, greedy `*`/`+`/`?`, alternation
(left preference), one capture group, the multiline anchors `^`/`$` and
the word boundary `\b`.  `runs` returns all match ends in backtracking
preference order (head = the match Python picks); it is structurally
recursive on an explicit fuel so that it evaluates in the kernel. -/

/-- Character classes occurring in the source's patterns. -/
inductive CSpec where
  | ws          -- `\s`
  | wordC       -- `[a-zA-Z0-9_]`
  | alphaU      -- `[a-zA-Z_]`
  | notAngle    -- `[^<>]`
  | notBraceNl  -- `[^{\n]`
  | notRpComma  -- `[^,)]`
  | notRp       -- `[^)]`
  | notLb       -- `[^{]`
  | javaTypeC   -- `[a-zA-Z0-9_<>,\s]`
  | oneOf (cs : List Char)
deriving DecidableEq, Repr

def CSpec.mem : CSpec → Char → Bool
  | .ws, c => isSpaceCh c
  | .wordC, c => isWordCh c
  | .alphaU, c => isAlphaU c
  | .notAngle, c => !(c = '<' || c = '>')
  | .notBraceNl, c => !(c = '\x7b' || c = '\n')
  | .notRpComma, c => !(c = ',' || c = ')')
  | .notRp, c => !(c = ')')
  | .notLb, c => !(c = '\x7b')
  | .javaTypeC, c => isWordCh c || c = '<' || c = '>' || c = ',' || isSpaceCh c
  | .oneOf cs, c => cs.contains c

/-- Regular expressions over the constructs used by the source. -/
inductive Rx where
  | eps
  | ch (c : Char)
  | cls (s : CSpec)
  | seq (a b : Rx)
  | alt (a b : Rx)
  | star (a : Rx)
  | opt (a : Rx)
  | grp (a : Rx)
  | bol | eol | wb
deriving DecidableEq, Repr

/-- Literal string regex. -/
def lits (cs : List Char) : Rx := cs.foldr (fun c r => .seq (.ch c) r) .eps

/-- Sequence of regexes. -/
def seqs (rs : List Rx) : Rx := rs.foldr .seq .eps

/-- Alternation with left preference, in list order. -/
def alts : List Rx → Rx
  | [] => .eps
  | r :: rs => rs.foldl .alt r

def wsStar : Rx := .star (.cls .ws)

def wsPlus : Rx := .seq (.cls .ws) wsStar

/-- `[a-zA-Z_][a-zA-Z0-9_]*`. -/
def identRx : Rx := .seq (.cls .alphaU) (.star (.cls .wordC))

/-- Is the character at `pos` a word character? (out of range counts as no). -/
def wordAtPos (line : List Char) (pos : Nat) : Bool :=
  match line.get? pos with
  | some c => isWordCh c
  | none => false

/-- Python `\b` at `pos`. -/
def boundaryAt (line : List Char) (pos : Nat) : Bool :=
  (decide (pos ≠ 0) && wordAtPos line (pos - 1)) != wordAtPos line pos

/-- Python `^` (multiline) at `pos`. -/
def bolAt (line : List Char) (pos : Nat) : Bool :=
  pos = 0 || line.get? (pos - 1) = some '\n'

/-- Python `$` (multiline) at `pos`. -/
def eolAt (line : List Char) (pos : Nat) : Bool :=
  pos = line.length || line.get? pos = some '\n'

/-- All ways the regex can match starting at `pos`, as
`(end position, capture-group span)`, in backtracking preference order
(greedy quantifiers longest first, alternation left first).  Every result
position is `≥ pos`.  Runs out of fuel only below the bound used by
`rxRuns`. -/
def runs : Nat → Rx → List Char → Nat → List (Nat × Option (Nat × Nat))
  | 0, _, _, _ => []
  | _ + 1, .eps, _, pos => [(pos, none)]
  | _ + 1, .ch c, line, pos =>
    match line.get? pos with
    | some d => if d = c then [(pos + 1, none)] else []
    | none => []
  | _ + 1, .cls s, line, pos =>
    match line.get? pos with
    | some d => if s.mem d then [(pos + 1, none)] else []
    | none => []
  | fuel + 1, .seq a b, line, pos =>
    (runs fuel a line pos).flatMap fun r =>
      (runs fuel b line r.1).map fun r2 => (r2.1, r2.2 <|> r.2)
  | fuel + 1, .alt a b, line, pos => runs fuel a line pos ++ runs fuel b line pos
  | fuel + 1, .star a, line, pos =>
    (((runs fuel a line pos).filter (fun r => pos < r.1)).flatMap fun r =>
      (runs fuel (.star a) line r.1).map fun r2 => (r2.1, r2.2 <|> r.2)) ++ [(pos, none)]
  | fuel + 1, .opt a, line, pos => runs fuel a line pos ++ [(pos, none)]
  | fuel + 1, .grp a, line, pos =>
    (runs fuel a line pos).map fun r => (r.1, some (pos, r.1))
  | _ + 1, .bol, line, pos => if bolAt line pos then [(pos, none)] else []
  | _ + 1, .eol, line, pos => if eolAt line pos then [(pos, none)] else []
  | _ + 1, .wb, line, pos => if boundaryAt line pos then [(pos, none)] else []

/-- Structural size of a regex, for the fuel bound. -/
def rxSize : Rx → Nat
  | .eps | .ch _ | .cls _ | .bol | .eol | .wb => 1
  | .seq a b | .alt a b => rxSize a + rxSize b + 1
  | .star a | .opt a | .grp a => rxSize a + 1

/-- `runs` with sufficient fuel. -/
def rxRuns (r : Rx) (line : List Char) (pos : Nat) : List (Nat × Option (Nat × Nat)) :=
  runs ((line.length + 1) * (rxSize r + 1) + 1) r line pos

/-- The match Python picks when anchoring at `pos`, if any. -/
def matchEndAt (r : Rx) (line : List Char) (pos : Nat) :
    Option (Nat × Option (Nat × Nat)) :=
  (rxRuns r line pos).head?

/-- Leftmost match with start `≥ pos`: `(start, end, group span)`. -/
def firstMatchFrom (r : Rx) (line : List Char) (pos : Nat) :
    Option (Nat × Nat × Option (Nat × Nat)) :=
  (List.range (line.length + 1 - pos)).findSome? fun d =>
    (matchEndAt r line (pos + d)).map fun e => (pos + d, e.1, e.2)

/-- Number of `re.findall` matches from `pos` on (non-overlapping, scanning
left to right; an empty match advances by one as in Python). -/
def findallCnt : Nat → Rx → List Char → Nat → Nat
  | 0, _, _, _ => 0
  | fuel + 1, r, line, pos =>
    match firstMatchFrom r line pos with
    | none => 0
    | some (s, e, _) => 1 + findallCnt fuel r line (if s < e then e else s + 1)

/-- `len(re.findall(r, line))`. -/
def rxCount (r : Rx) (line : List Char) : Nat :=
  findallCnt (line.length + 1) r line 0

/-- `re.search(r, line)`. -/
def rxSearch (r : Rx) (line : List Char) : Option (Nat × Nat × Option (Nat × Nat)) :=
  firstMatchFrom r line 0

/-- Truthiness of `re.search(r, line)`. -/
def rxHas (r : Rx) (line : List Char) : Bool :=
  (rxSearch r line).isSome

/-- Captured group-1 substring of a match. -/
def grpStr (line : List Char) : Option (Nat × Nat) → List Char
  | some (gs, ge) => (line.drop gs).take (ge - gs)
  | none => []

/-- Group-1 contents of successive `re.finditer` matches. -/
def groupsFrom : Nat → Rx → List Char → Nat → List (List Char)
  | 0, _, _, _ => []
  | fuel + 1, r, line, pos =>
    match firstMatchFrom r line pos with
    | none => []
    | some (s, e, g) =>
      grpStr line g :: groupsFrom fuel r line (if s < e then e else s + 1)

/-- `[m.group(1) for m in re.finditer(r, line)]` (also `re.findall` with one
group). -/
def rxGroups (r : Rx) (line : List Char) : List (List Char) :=
  groupsFrom (line.length + 1) r line 0

/-! ## Patterns (`build_patterns`, source lines 682-701) -/

/-- The nine class-mode patterns of `build_patterns`. -/
structure ClassPatterns where
  importFqn : Rx    -- `\bimport\s+FQN\b`
  importCls : Rx    -- `\bimport\s+IDENT(?:\.IDENT)*\.CLS\b`
  directFqn : Rx    -- `\bFQN\b`
  ctorP : Rx        -- `\bCLS\s*\(`
  typeAnnotP : Rx   -- `:\s*CLS\b`
  genericP : Rx     -- `<[^<>]*\bCLS\b[^<>]*>`
  annotP : Rx       -- `@CLS\b`
  instChk : Rx      -- `\bis\s+CLS\b`
  simpleName : Rx   -- `\bCLS\b`
deriving Repr

/-- `build_patterns(fqn, class_name)` (source lines 682-701). -/
def build_patterns (fqn cls : List Char) : ClassPatterns where
  importFqn := seqs [.wb, lits ("import".data), wsPlus, lits fqn, .wb]
  importCls := seqs [.wb, lits ("import".data), wsPlus, identRx,
    .star (.seq (.ch '.') identRx), .ch '.', lits cls, .wb]
  directFqn := seqs [.wb, lits fqn, .wb]
  ctorP := seqs [.wb, lits cls, wsStar, .ch '(']
  typeAnnotP := seqs [.ch ':', wsStar, lits cls, .wb]
  genericP := seqs [.ch '<', .star (.cls .notAngle), .wb, lits cls, .wb,
    .star (.cls .notAngle), .ch '>']
  annotP := seqs [.ch '@', lits cls, .wb]
  instChk := seqs [.wb, lits ("is".data), wsPlus, lits cls, .wb]
  simpleName := seqs [.wb, lits cls, .wb]

/-- A member-mode pattern together with the dict key used by
`scan_file_for_member_usage` to recognise `dot_access`/`this_access`. -/
structure MemberPat where
  isDotKey : Bool
  rx : Rx
deriving Repr

/-- Member kind (`member_type` in the source). -/
inductive MemberType where
  | method | field
deriving DecidableEq, Repr

/-- `\bNAME\s*\(` (source line 711). -/
def callRx (name : List Char) : Rx := seqs [.wb, lits name, wsStar, .ch '(']

/-- `::\s*NAME\b` (source lines 713, 723). -/
def refRx (name : List Char) : Rx := seqs [lits ("::".data), wsStar, lits name, .wb]

/-- `\boverride\b[^{\n]*\bNAME\s*\(` (source line 715). -/
def overrideRx (name : List Char) : Rx :=
  seqs [.wb, lits ("override".data), .wb, .star (.cls .notBraceNl), .wb,
    lits name, wsStar, .ch '(']

/-- `\.(\s*)NAME\b` (source line 719). -/
def dotAccessRx (name : List Char) : Rx :=
  seqs [.ch '.', .grp wsStar, lits name, .wb]

/-- `\bthis\.(\s*)NAME\b` (source line 721). -/
def thisAccessRx (name : List Char) : Rx :=
  seqs [.wb, lits ("this".data), .ch '.', .grp wsStar, lits name, .wb]

/-- `\bNAME\s*=` (source line 725). -/
def namedArgRx (name : List Char) : Rx := seqs [.wb, lits name, wsStar, .ch '=']

/-- `build_member_patterns(member_name, member_type)` (source lines 704-727),
in dict insertion order. -/
def build_member_patterns (name : List Char) : MemberType → List MemberPat
  | .method =>
    [⟨false, callRx name⟩, ⟨false, refRx name⟩, ⟨false, overrideRx name⟩]
  | .field =>
    [⟨true, dotAccessRx name⟩, ⟨true, thisAccessRx name⟩,
     ⟨false, refRx name⟩, ⟨false, namedArgRx name⟩]

/-- Dotted name `[a-zA-Z_]\w*(?:\.[a-zA-Z_]\w*)*`. -/
def dottedRx : Rx := .seq identRx (.star (.seq (.ch '.') identRx))

/-- `^\s*package\s+([a-zA-Z_]\w*(?:\.[a-zA-Z_]\w*)*)\s*;?\s*$` (multiline),
the package pattern of `parse_target_metadata` / `scan_file_for_usage`
(source lines 524, 744, 810). -/
def pkgRx : Rx :=
  seqs [.bol, wsStar, lits ("package".data), wsPlus, .grp dottedRx,
    wsStar, .opt (.ch ';'), wsStar, .eol]

/-- `(?:val|var)\s+([a-zA-Z_]\w*)\s*:\s*CLS\b` (source line 838). -/
def kotlinTypedRx (cls : List Char) : Rx :=
  seqs [alts [lits ("val".data), lits ("var".data)], wsPlus, .grp identRx,
    wsStar, .ch ':', wsStar, lits cls, .wb]

/-- `CLS\s+([a-zA-Z_]\w*)\b` (source line 841). -/
def javaTypedRx (cls : List Char) : Rx :=
  seqs [lits cls, wsPlus, .grp identRx, .wb]

/-- `\bVAR\s*\??\.\s*MEMBER\b` (source line 863). -/
def qualifiedRx (v m : List Char) : Rx :=
  seqs [.wb, lits v, wsStar, .opt (.ch '?'), .ch '.', wsStar, lits m, .wb]

/-- `\bCLS\s*\.\s*MEMBER\b` (source line 869). -/
def staticRx (cls m : List Char) : Rx :=
  seqs [.wb, lits cls, wsStar, .ch '.', wsStar, lits m, .wb]

/-! ## Class-mode scan (`scan_file_for_usage`, source lines 730-791) -/

/-- The simple-name filter of `scan_file_for_usage` (source lines 779-783):
given the raw per-line simple-name match count `m`, return the retained
count. -/
def applyScopeFilter (strictImport samePkgOk hasImp : Bool)
    (filePkg targetPkg : List Char) (m : Nat) : Nat :=
  if 0 < m then
    if strictImport && !hasImp then 0
    else if !samePkgOk && filePkg != targetPkg && !hasImp then 0
    else m
  else m

/-- Per-line count of the import/FQN categories (source lines 768-770). -/
def importCnt (p : ClassPatterns) (cl : List Char) : Nat :=
  rxCount p.importFqn cl + rxCount p.importCls cl + rxCount p.directFqn cl

/-- Per-line raw count of the six simple-name categories (source lines
773-776). -/
def simpleCnt (p : ClassPatterns) (cl : List Char) : Nat :=
  rxCount p.ctorP cl + rxCount p.typeAnnotP cl + rxCount p.genericP cl +
    rxCount p.annotP cl + rxCount p.instChk cl + rxCount p.simpleName cl

/-- `has_import_or_fqn` (source lines 752-756, 819-823): the clean text has
an import or direct FQN occurrence. -/
def hasImportOrFqn (p : ClassPatterns) (clean : List Char) : Bool :=
  rxHas p.importFqn clean || rxHas p.importCls clean || rxHas p.directFqn clean

/-- Total retained matches of one clean line (source lines 765-785). -/
def lineMatchCount (p : ClassPatterns) (strict spo has : Bool)
    (filePkg targetPkg cl : List Char) : Nat :=
  importCnt p cl + applyScopeFilter strict spo has filePkg targetPkg (simpleCnt p cl)

/-- `file_package` extraction (source lines 743-746): first match of the
package pattern, else the empty string. -/
def filePackageOf (content : List Char) : List Char :=
  match rxSearch pkgRx content with
  | some (_, _, g) => grpStr content g
  | none => []

/-- The line loop of `scan_file_for_usage` (source lines 763-789) over
`zip(lines, clean_lines)` with 0-based index `i`. -/
def scanLinesU (p : ClassPatterns) (strict spo has : Bool)
    (filePkg targetPkg : List Char) :
    List (List Char × List Char) → Nat → Nat × List (Nat × List Char)
  | [], _ => (0, [])
  | (orig, cl) :: rest, i =>
    let m := lineMatchCount p strict spo has filePkg targetPkg cl
    let t := scanLinesU p strict spo has filePkg targetPkg rest (i + 1)
    (m + t.1, (if 0 < m then [(i + 1, trimWs orig)] else []) ++ t.2)

/-- `scan_file_for_usage` (source lines 730-791) on file text that was read
successfully.  Returns `(total_matches, line_hits, file_package)`. -/
def scan_file_for_usage (content : List Char) (p : ClassPatterns)
    (samePkgOk : Bool) (targetPkg : List Char) (strictImport : Bool) :
    Nat × List (Nat × List Char) × List Char :=
  let filePkg := filePackageOf content
  let clean := strip_comments_and_strings content
  let pairs := (splitlines content).zip (splitlines clean)
  let t := scanLinesU p strictImport samePkgOk (hasImportOrFqn p clean) filePkg
    targetPkg pairs 0
  (t.1, t.2, filePkg)

/-! ## Member-mode scan (`scan_file_for_member_usage`, source lines 794-882) -/

/-- Deduplication keeping the first occurrence (model of `set(...)` whose
iteration order Python leaves unspecified). -/
def dedupAux [DecidableEq α] : List α → List α → List α
  | [], _ => []
  | x :: xs, seen => if x ∈ seen then dedupAux xs seen else x :: dedupAux xs (x :: seen)

def dedupKeepFirst [DecidableEq α] (l : List α) : List α := dedupAux l []

/-- Contribution of a `dot_access`/`this_access` pattern whose raw count is
`matches`, when at least one typed variable exists (source lines 860-874):
the first typed variable whose qualified pattern occurs on the line wins,
else a `CLS.member` static access, else the raw count if the file has an
import/FQN reference, else nothing. -/
def dotAdd (cls member : List Char) (has : Bool) (typedVars : List (List Char))
    (cl : List Char) (mraw : Nat) : Nat :=
  match typedVars.find? (fun v => rxHas (qualifiedRx v member) cl) with
  | some v => rxCount (qualifiedRx v member) cl
  | none =>
    if rxHas (staticRx cls member) cl then rxCount (staticRx cls member) cl
    else if has then mraw
    else 0

/-- Retained count of one member on one clean line (source lines 852-876). -/
def memberLineCount (cls : List Char) (has : Bool) (typedVars : List (List Char))
    (member : List Char) (mt : MemberType) (cl : List Char) : Nat :=
  (build_member_patterns member mt).foldl
    (fun acc mp =>
      let mraw := rxCount mp.rx cl
      if 0 < mraw then
        if mp.isDotKey && !typedVars.isEmpty then
          acc + dotAdd cls member has typedVars cl mraw
        else acc + mraw
      else acc)
    0

/-- The member loop on one line (source lines 852-880), in member-list
order. -/
def memberHitsOnLine (cls : List Char) (has : Bool) (typedVars : List (List Char))
    (mt : MemberType) (cl orig : List Char) (i : Nat) :
    List (List Char) → Nat × List (Nat × List Char × List Char × MemberType)
  | [] => (0, [])
  | mem :: rest =>
    let m := memberLineCount cls has typedVars mem mt cl
    let t := memberHitsOnLine cls has typedVars mt cl orig i rest
    (m + t.1, (if 0 < m then [(i + 1, trimWs orig, mem, mt)] else []) ++ t.2)

/-- The line loop of `scan_file_for_member_usage` (source lines 849-880). -/
def scanLinesM (cls : List Char) (has : Bool) (typedVars : List (List Char))
    (members : List (List Char)) (mt : MemberType) :
    List (List Char × List Char) → Nat →
      Nat × List (Nat × List Char × List Char × MemberType)
  | [], _ => (0, [])
  | (orig, cl) :: rest, i =>
    let h := memberHitsOnLine cls has typedVars mt cl orig i members
    let t := scanLinesM cls has typedVars members mt rest (i + 1)
    (h.1 + t.1, h.2 ++ t.2)

/-- `scan_file_for_member_usage` (source lines 794-882) on file text that was
read successfully. -/
def scan_file_for_member_usage (content cls fqn : List Char)
    (members : List (List Char)) (mt : MemberType) (samePkgOk : Bool)
    (targetPkg : List Char) (strictImport : Bool) :
    Nat × List (Nat × List Char × List Char × MemberType) × List Char :=
  let filePkg := filePackageOf content
  let clean := strip_comments_and_strings content
  let cp := build_patterns fqn cls
  let has := hasImportOrFqn cp clean
  if strictImport && !has then (0, [], filePkg)
  else if !samePkgOk && !has && filePkg != targetPkg &&
      !(rxHas cp.simpleName clean) then (0, [], filePkg)
  else
    let typedVars := dedupKeepFirst
      (rxGroups (kotlinTypedRx cls) clean ++ rxGroups (javaTypedRx cls) clean)
    let pairs := (splitlines content).zip (splitlines clean)
    let t := scanLinesM cls has typedVars members mt pairs 0
    (t.1, t.2, filePkg)

/-! ## Target resolution (`parse_target_metadata`, source lines 511-553) -/

/-- `(?:public\s+|private\s+|protected\s+|internal\s+)` as alternation. -/
def visAlt : Rx :=
  alts [.seq (lits ("public".data)) wsPlus, .seq (lits ("private".data)) wsPlus,
    .seq (lits ("protected".data)) wsPlus, .seq (lits ("internal".data)) wsPlus]

/-- `(?:abstract\s+|final\s+|open\s+)`. -/
def modAlt : Rx :=
  alts [.seq (lits ("abstract".data)) wsPlus, .seq (lits ("final".data)) wsPlus,
    .seq (lits ("open".data)) wsPlus]

/-- Declaration pattern 1 (source line 530):
`^\s*(?:vis)?(?:mod)?(?:data\s+)?class\s+(ident)`. -/
def declP1 : Rx :=
  seqs [.bol, wsStar, .opt visAlt, .opt modAlt,
    .opt (.seq (lits ("data".data)) wsPlus), lits ("class".data), wsPlus, .grp identRx]

/-- Declaration pattern 2 (source line 531): `^\s*(?:vis)?interface\s+(ident)`. -/
def declP2 : Rx :=
  seqs [.bol, wsStar, .opt visAlt, lits ("interface".data), wsPlus, .grp identRx]

/-- Declaration pattern 3 (source line 532):
`^\s*(?:vis)?enum\s+(?:class\s+)?(ident)`. -/
def declP3 : Rx :=
  seqs [.bol, wsStar, .opt visAlt, lits ("enum".data), wsPlus,
    .opt (.seq (lits ("class".data)) wsPlus), .grp identRx]

/-- Declaration pattern 4 (source line 533):
`^\s*(?:vis)?(?:sealed\s+)?(?:data\s+)?class\s+(ident)`. -/
def declP4 : Rx :=
  seqs [.bol, wsStar, .opt visAlt, .opt (.seq (lits ("sealed".data)) wsPlus),
    .opt (.seq (lits ("data".data)) wsPlus), lits ("class".data), wsPlus, .grp identRx]

/-- Declaration pattern 5 (source line 534):
`^\s*(?:vis)?annotation\s+class\s+(ident)`. -/
def declP5 : Rx :=
  seqs [.bol, wsStar, .opt visAlt, lits ("annotation".data), wsPlus,
    lits ("class".data), wsPlus, .grp identRx]

/-- `class_names` of `parse_target_metadata` (source lines 537-541): all
captures of the five probes, pattern by pattern (for each pattern, in file
order). -/
def candidateNames (content : List Char) : List (List Char) :=
  rxGroups declP1 content ++ rxGroups declP2 content ++ rxGroups declP3 content ++
    rxGroups declP4 content ++ rxGroups declP5 content

/-- Candidate selection (source line 548): the candidate equal to the file
stem if any, else the first collected candidate. -/
def pickName (names : List (List Char)) (stem : List Char) : List Char :=
  (names.find? (fun n => n == stem)).getD (names.headD [])

/-- `parse_target_metadata` (source lines 511-553) on file text that was read
successfully; the `ValueError` for a declaration-free file is an `Except.error`.
Returns `(package, class_name, fqn)`. -/
def parse_target_metadata (content stem : List Char) :
    Except (List Char) (List Char × List Char × List Char) :=
  let pkg := filePackageOf content
  let names := candidateNames content
  if names.isEmpty then
    .error ("No class/interface/enum declarations found in target file".data)
  else
    let name := pickName names stem
    .ok (pkg, name, if pkg.isEmpty then name else pkg ++ '.' :: name)

/-! ## Member extraction (`parse_target_members`, source lines 556-618) -/

/-- `(?:data\s+)?class\s+CLS\s*(?:\([^)]*\))?\s*(?:\:\s*[^{]*)?{` (source
line 568). -/
def classHeadRx (cls : List Char) : Rx :=
  seqs [.opt (.seq (lits ("data".data)) wsPlus), lits ("class".data), wsPlus,
    lits cls, wsStar, .opt (seqs [.ch '(', .star (.cls .notRp), .ch ')']),
    wsStar, .opt (seqs [.ch ':', wsStar, .star (.cls .notLb)]), .ch '\x7b']

/-- `class\s+CLS\s*\(([^)]*)\)` (source line 577). -/
def primaryCtorRx (cls : List Char) : Rx :=
  seqs [lits ("class".data), wsPlus, lits cls, wsStar, .ch '(',
    .grp (.star (.cls .notRp)), .ch ')']

/-- `(?:val|var)\s+([a-zA-Z_]\w*)\s*:\s*[^,)]*` (source line 581). -/
def paramRx : Rx :=
  seqs [alts [lits ("val".data), lits ("var".data)], wsPlus, .grp identRx,
    wsStar, .ch ':', wsStar, .star (.cls .notRpComma)]

/-- `^\s*(?:val|var)\s+([a-zA-Z_]\w*)\s*[:=]` (source line 588). -/
def kotlinFieldRx : Rx :=
  seqs [.bol, wsStar, alts [lits ("val".data), lits ("var".data)], wsPlus,
    .grp identRx, wsStar, .cls (.oneOf [':', '='])]

/-- `^\s*(?:public|private|protected)?\s*(?:static)?\s*(?:final)?\s*`
`[a-zA-Z_][a-zA-Z0-9_<>,\s]*\s+([a-zA-Z_]\w*)\s*[;=]` (source line 590). -/
def javaFieldRx : Rx :=
  seqs [.bol, wsStar,
    .opt (alts [lits ("public".data), lits ("private".data), lits ("protected".data)]),
    wsStar, .opt (lits ("static".data)), wsStar, .opt (lits ("final".data)), wsStar,
    .cls .alphaU, .star (.cls .javaTypeC), wsPlus, .grp identRx, wsStar,
    .cls (.oneOf [';', '='])]

/-- `^\s*(?:override\s+)?(?:suspend\s+)?fun\s+([a-zA-Z_]\w*)\s*\(` (source
line 603). -/
def kotlinFunRx : Rx :=
  seqs [.bol, wsStar, .opt (.seq (lits ("override".data)) wsPlus),
    .opt (.seq (lits ("suspend".data)) wsPlus), lits ("fun".data), wsPlus,
    .grp identRx, wsStar, .ch '(']

/-- `^\s*(?:public|private|protected)?\s*(?:static)?\s*(?:final)?\s*`
`(?:synchronized)?\s*[a-zA-Z_][a-zA-Z0-9_<>,\s]*\s+([a-zA-Z_]\w*)\s*\(`
(source line 605). -/
def javaMethodRx : Rx :=
  seqs [.bol, wsStar,
    .opt (alts [lits ("public".data), lits ("private".data), lits ("protected".data)]),
    wsStar, .opt (lits ("static".data)), wsStar, .opt (lits ("final".data)), wsStar,
    .opt (lits ("synchronized".data)), wsStar,
    .cls .alphaU, .star (.cls .javaTypeC), wsPlus, .grp identRx, wsStar, .ch '(']

/-- Lexicographic (code-point) order on strings, Python `sorted`. -/
def leStr : List Char → List Char → Bool
  | [], _ => true
  | _ :: _, [] => false
  | a :: as, b :: bs => if a = b then leStr as bs else decide (a < b)

def insertSorted (x : List Char) : List (List Char) → List (List Char)
  | [] => [x]
  | y :: ys => if leStr x y then x :: y :: ys else y :: insertSorted x ys

/-- Insertion sort by `leStr`; `sorted(...)` in the source. -/
def sortStrs : List (List Char) → List (List Char)
  | [] => []
  | x :: xs => insertSorted x (sortStrs xs)

/-- Names skipped by the field collector (source line 597). -/
def fieldSkip : List (List Char) :=
  ["class", "interface", "enum", "fun", "val", "var"].map String.data

/-- Names skipped by the method collector besides the class name (source
line 612). -/
def methodSkip : List (List Char) :=
  ["class", "interface", "enum", "if", "for", "while", "when"].map String.data

/-- `parse_target_members` (source lines 556-618): returns
`(fields, methods)`, each sorted and deduplicated. -/
def parse_target_members (content cls : List Char) :
    List (List Char) × List (List Char) :=
  let clean := strip_comments_and_strings content
  let ctorFields :=
    match rxSearch (classHeadRx cls) clean with
    | some (s, _, _) =>
      let remaining := clean.drop s
      match rxSearch (primaryCtorRx cls) remaining with
      | some (_, _, g) => rxGroups paramRx (grpStr remaining g)
      | none => []
    | none => []
  let declFields := (rxGroups kotlinFieldRx clean ++ rxGroups javaFieldRx clean).filter
    (fun n => !(fieldSkip.contains n))
  let methodNames := (rxGroups kotlinFunRx clean ++ rxGroups javaMethodRx clean).filter
    (fun n => !(n == cls || methodSkip.contains n))
  (sortStrs (dedupKeepFirst (ctorFields ++ declFields)),
   sortStrs (dedupKeepFirst methodNames))

/-! ## Read failure and the orchestrator (source lines 736-740, 802-806,
1821-1912)

File reading is external I/O; its outcome is modelled as an
`Option (List Char)` input (`none` = the `open`/`read` raised `OSError`/
`IOError`).  The source catches exactly that and returns `(0, [], None)`. -/

/-- `scan_file_for_usage` including its read guard. -/
def scanFileForUsageRead (r : Option (List Char)) (p : ClassPatterns)
    (samePkgOk : Bool) (targetPkg : List Char) (strictImport : Bool) :
    Nat × List (Nat × List Char) × Option (List Char) :=
  match r with
  | none => (0, [], none)
  | some content =>
    let t := scan_file_for_usage content p samePkgOk targetPkg strictImport
    (t.1, t.2.1, some t.2.2)

/-- `scan_file_for_member_usage` including its read guard. -/
def scanFileForMemberRead (r : Option (List Char)) (cls fqn : List Char)
    (members : List (List Char)) (mt : MemberType) (samePkgOk : Bool)
    (targetPkg : List Char) (strictImport : Bool) :
    Nat × List (Nat × List Char × List Char × MemberType) × Option (List Char) :=
  match r with
  | none => (0, [], none)
  | some content =>
    let t := scan_file_for_member_usage content cls fqn members mt samePkgOk
      targetPkg strictImport
    (t.1, t.2.1, some t.2.2)

/-- The per-file task of `main`'s scan loop (source lines 1854-1862, class
mode): a result is produced only when the match count is positive. -/
def scanFileTask (r : Option (List Char)) (p : ClassPatterns) (samePkgOk : Bool)
    (targetPkg : List Char) (strictImport : Bool) :
    Option (Nat × List (Nat × List Char) × Option (List Char)) :=
  let t := scanFileForUsageRead r p samePkgOk targetPkg strictImport
  if 0 < t.1 then some t else none

/-- The orchestrator's aggregation (source lines 1889-1898): per-file tasks
are independent, results of failed/zero files are dropped. -/
def runScan (files : List (Option (List Char))) (p : ClassPatterns)
    (samePkgOk : Bool) (targetPkg : List Char) (strictImport : Bool) :
    List (Nat × List (Nat × List Char) × Option (List Char)) :=
  files.filterMap (fun r => scanFileTask r p samePkgOk targetPkg strictImport)

/-! ## The Tree-sitter engine's hit list (`AstEngineKotlin.scan_file_ast`,
source lines 464-508, class mode)

The Tree-sitter parser is an external dependency; its query captures are
inputs of the model (one list of name-capture nodes per query), and the
filtering/concatenation below is the source's own logic. -/

structure CapNode where
  line : Nat
  col : Nat
  txt : List Char
deriving DecidableEq, Repr

structure AstHit where
  line : Nat
  col : Nat
  member : Option (List Char)
  kind : List Char
  snippet : List Char
deriving DecidableEq, Repr

/-- `find_class_declarations` (source lines 253-272). -/
def findClassDecls (caps : List CapNode) (target : List Char) : List AstHit :=
  (caps.filter (fun n => n.txt == target)).map
    (fun n => ⟨n.line, n.col, none, "class".data, n.txt⟩)

/-- `find_constructor_calls` (source lines 314-333): simple name or a
qualified name ending in `.target`. -/
def findCtorCalls (caps : List CapNode) (target : List Char) : List AstHit :=
  (caps.filter (fun n => n.txt == target || ('.' :: target).isSuffixOf n.txt)).map
    (fun n => ⟨n.line, n.col, none, "ctor".data, n.txt⟩)

/-- `find_annotations` (source lines 335-353). -/
def findAnnots (caps : List CapNode) (target : List Char) : List AstHit :=
  (caps.filter (fun n => n.txt == target)).map
    (fun n => ⟨n.line, n.col, none, "annotation".data, '@' :: n.txt⟩)

/-- `find_type_references` (source lines 355-373). -/
def findTypeRefs (caps : List CapNode) (target : List Char) : List AstHit :=
  (caps.filter (fun n => n.txt == target)).map
    (fun n => ⟨n.line, n.col, none, "type".data, n.txt⟩)

/-- `scan_file_ast` in class mode (source lines 464-508) for a file that was
read and parsed; capture lists and extracted package/imports are the
external parser's outputs.  Returns `(count, file_package, hits)`. -/
def scan_file_ast (filePkg : Option (List Char))
    (imports : List (List Char × List Char))
    (declCaps ctorCaps annCaps typeCaps : List CapNode)
    (targetCls targetFqn : List Char) (samePkgOk : Bool)
    (targetPkg : List Char) (strictImport : Bool) :
    Nat × Option (List Char) × List AstHit :=
  let hasImport := imports.any (fun kv => kv.1 == targetCls) ||
    imports.any (fun kv => kv.2 == targetFqn)
  let samePackage := filePkg == some targetPkg
  if strictImport && !hasImport then (0, filePkg, [])
  else if !samePkgOk && !samePackage && !hasImport then (0, filePkg, [])
  else
    let hits := findClassDecls declCaps targetCls ++ findCtorCalls ctorCaps targetCls ++
      findAnnots annCaps targetCls ++ findTypeRefs typeCaps targetCls
    (hits.length, filePkg, hits)

/-! ## Shared lemmas about the scans -/

/-- The Scope Filter decision table, transcribed row by row from the spec
(§4.5); arguments `(strictImport, hasImportOrFqn, samePackageOk,
filePackage == targetPackage)`. -/
def scopeTableRetain : Bool → Bool → Bool → Bool → Bool
  | true, false, _, _ => false
  | true, true, _, _ => true
  | false, false, false, false => false
  | false, false, true, _ => true
  | false, false, false, true => true
  | false, true, _, _ => true

/-- Patterns for target class `Foo` with FQN `com.ex.Foo`, used by concrete
counterexamples. -/
def fooPatterns : ClassPatterns :=
  build_patterns ("com.ex.Foo".data) ("Foo".data)

/-- The file of the C7 counterexample: `class Foo {}` followed by
`interface Z { fun draw() }`. -/
def c7file : List Char :=
  "class Foo \x7b\x7d\ninterface Z \x7b\nfun draw()\n\x7d".data

/-! ## C1: comment/string immunity

The per-line counting of `scan_file_for_usage` matches original line `i`
with **clean** line `i`.  These lines stay aligned exactly when the
preprocessor preserves line breaks, i.e. when no string/char literal spans
a line break; the counterexample below shows a comment line being charged
with another line's matches after a multiline string shifts the alignment.
The development then proves the aligned case: `lineScan` is the scanner
restricted to a single line followed by a line break, `stepLine` factors
`scan` at the first line break, and `stripLines` rebuilds the clean lines
one source line at a time. -/

/-- One line of the scan, assuming a `'\n'` follows the line: output within
the line and the state in force when the line break is reached. -/
def lineScan : LexSt → List Char → List Char × LexSt
  | st, [] => ([], st)
  | .code, '/' :: '/' :: r => lineScan .lineC r
  | .code, '/' :: '*' :: r => lineScan .blockC r
  | .code, '"' :: r => let t := lineScan .dq r; (' ' :: t.1, t.2)
  | .code, '\'' :: r => let t := lineScan .sq r; (' ' :: t.1, t.2)
  | .code, c :: r => let t := lineScan .code r; (c :: t.1, t.2)
  | .lineC, _ :: r => lineScan .lineC r
  | .blockC, '*' :: '/' :: r => lineScan .code r
  | .blockC, _ :: r => lineScan .blockC r
  | .dq, '"' :: r => lineScan .code r
  | .dq, '\\' :: _ :: r => lineScan .dq r
  | .dq, _ :: r => lineScan .dq r
  | .sq, '\'' :: r => lineScan .code r
  | .sq, '\\' :: _ :: r => lineScan .sq r
  | .sq, _ :: r => lineScan .sq r

/-- The state a line hands to the next line: a line comment ends at the
line break. -/
def nextSt : LexSt → LexSt
  | .lineC => .code
  | s => s

/-- All line-exit states along a list of lines are outside string/char
literals: then every line break of the file survives the preprocessor and
the clean lines stay aligned with the source lines. -/
def linesSafe (st : LexSt) : List (List Char) → Bool
  | [] => true
  | l :: ls =>
    let e := (lineScan st l).2
    !(e = .dq || e = .sq) && linesSafe (nextSt e) ls

/-- Entry state of line `i` (0-based), starting from `st`. -/
def entrySt (st : LexSt) : List (List Char) → Nat → LexSt
  | _, 0 => st
  | [], _ + 1 => st
  | l :: ls, i + 1 => entrySt (nextSt (lineScan st l).2) ls i

/-- Does the text end in a line break? -/
def endsNl (cs : List Char) : Bool :=
  match cs.getLast? with
  | some '\n' => true
  | _ => false

/-- The clean lines, one source line at a time: every line followed by a
line break contributes `(lineScan …).1`; a final line not followed by a
line break is processed by the end-of-input scanner. -/
def stripLines (st : LexSt) : List (List Char) → Bool → List (List Char)
  | [], _ => []
  | [l], false => splitlines (scan st l)
  | [l], true => [(lineScan st l).1]
  | l :: ls, b => (lineScan st l).1 :: stripLines (nextSt (lineScan st l).2) ls b

/-- Consume a double-quoted literal body up to its closing quote. -/
def dqClose : List Char → Option (List Char)
  | [] => none
  | '"' :: r => some r
  | '\\' :: _ :: r => dqClose r
  | _ :: r => dqClose r

/-- Consume a single-quoted literal body up to its closing quote. -/
def sqClose : List Char → Option (List Char)
  | [] => none
  | '\'' :: r => some r
  | '\\' :: _ :: r => sqClose r
  | _ :: r => sqClose r

/-- Consume a block-comment body up to its closing `*/`. -/
def blkClose : List Char → Option (List Char)
  | [] => none
  | '*' :: '/' :: r => some r
  | _ :: r => blkClose r

/-- A line consisting solely of one comment or one string/char literal
(with surrounding whitespace): after leading whitespace it is a `//`
comment to end of line, or a block comment, a double-quoted literal or a
single-quoted literal that closes on the line, followed only by
whitespace. -/
def triviaLine (l : List Char) : Bool :=
  match l.dropWhile isSpaceCh with
  | '/' :: '/' :: _ => true
  | '/' :: '*' :: r =>
    match blkClose r with
    | some rest => rest.all isSpaceCh
    | none => false
  | '"' :: r =>
    match dqClose r with
    | some rest => rest.all isSpaceCh
    | none => false
  | '\'' :: r =>
    match sqClose r with
    | some rest => rest.all isSpaceCh
    | none => false
  | _ => false

/-- Character classes that never accept a whitespace character. -/
def wsFree : CSpec → Bool
  | .wordC => true
  | .alphaU => true
  | _ => false

/-- Syntactic criterion: the regex has no match at any position of an
all-whitespace line (every path requires a word character, a non-space
literal or a word boundary). -/
def wsFail : Rx → Bool
  | .eps => false
  | .ch c => !isSpaceCh c
  | .cls s => wsFree s
  | .seq a b => wsFail a || wsFail b
  | .alt a b => wsFail a && wsFail b
  | .star _ => false
  | .opt _ => false
  | .grp a => wsFail a
  | .bol => false
  | .eol => false
  | .wb => true

theorem applyScopeFilter_eq_table (strict spo has : Bool) (fp tp : List Char)
    (m : Nat) :
    applyScopeFilter strict spo has fp tp m =
      if scopeTableRetain strict has spo (fp == tp) then m else 0 := by
  by_cases h : fp = tp
  · subst h
    cases strict <;> cases spo <;> cases has <;>
      simp [applyScopeFilter, scopeTableRetain]
  · have hb : (fp == tp) = false := beq_false_of_ne h
    have hbne : (fp != tp) = true := by simp [bne, hb]
    cases strict <;> cases spo <;> cases has <;>
      simp [applyScopeFilter, scopeTableRetain, hb, hbne]

theorem scanLinesU_total (p : ClassPatterns) (strict spo has : Bool)
    (fp tp : List Char) :
    ∀ (pairs : List (List Char × List Char)) (i : Nat),
      (scanLinesU p strict spo has fp tp pairs i).1 =
        (pairs.map (fun pr => lineMatchCount p strict spo has fp tp pr.2)).sum
  | [], _ => rfl
  | (o, cl) :: rest, i => by
    simp [scanLinesU, scanLinesU_total p strict spo has fp tp rest (i + 1)]

theorem scanLinesU_hits_lb (p : ClassPatterns) (strict spo has : Bool)
    (fp tp : List Char) :
    ∀ (pairs : List (List Char × List Char)) (i : Nat) (pr : Nat × List Char),
      pr ∈ (scanLinesU p strict spo has fp tp pairs i).2 → i < pr.1
  | [], _, _, h => by simp [scanLinesU] at h
  | (o, cl) :: rest, i, pr, h => by
    simp only [scanLinesU, List.mem_append] at h
    rcases h with h | h
    · split at h <;> simp_all
    · exact Nat.lt_of_succ_lt (scanLinesU_hits_lb p strict spo has fp tp rest (i + 1) pr h)

theorem scanLinesU_hits_sorted (p : ClassPatterns) (strict spo has : Bool)
    (fp tp : List Char) :
    ∀ (pairs : List (List Char × List Char)) (i : Nat),
      ((scanLinesU p strict spo has fp tp pairs i).2).Pairwise
        (fun a b => a.1 ≤ b.1)
  | [], _ => by simp [scanLinesU]
  | (o, cl) :: rest, i => by
    have ih := scanLinesU_hits_sorted p strict spo has fp tp rest (i + 1)
    have lb := scanLinesU_hits_lb p strict spo has fp tp rest (i + 1)
    simp only [scanLinesU]
    split
    · refine List.Pairwise.cons ?_ ih
      intro b hb
      exact Nat.le_of_lt (lb b hb)
    · exact ih

theorem memberHitsOnLine_lines (cls : List Char) (has : Bool)
    (tv : List (List Char)) (mt : MemberType) (cl orig : List Char) (i : Nat) :
    ∀ (mems : List (List Char)) (pr : Nat × List Char × List Char × MemberType),
      pr ∈ (memberHitsOnLine cls has tv mt cl orig i mems).2 → pr.1 = i + 1
  | [], _, h => by simp [memberHitsOnLine] at h
  | mem :: rest, pr, h => by
    simp only [memberHitsOnLine, List.mem_append] at h
    rcases h with h | h
    · split at h <;> simp_all
    · exact memberHitsOnLine_lines cls has tv mt cl orig i rest pr h

theorem memberHitsOnLine_sorted (cls : List Char) (has : Bool)
    (tv : List (List Char)) (mt : MemberType) (cl orig : List Char) (i : Nat) :
    ∀ (mems : List (List Char)),
      ((memberHitsOnLine cls has tv mt cl orig i mems).2).Pairwise
        (fun a b => a.1 ≤ b.1)
  | [] => by simp [memberHitsOnLine]
  | mem :: rest => by
    have ih := memberHitsOnLine_sorted cls has tv mt cl orig i rest
    have lines := memberHitsOnLine_lines cls has tv mt cl orig i rest
    simp only [memberHitsOnLine]
    split
    · refine List.Pairwise.cons ?_ ih
      intro b hb
      simp [lines b hb]
    · exact ih

theorem scanLinesM_hits_lb (cls : List Char) (has : Bool) (tv : List (List Char))
    (mems : List (List Char)) (mt : MemberType) :
    ∀ (pairs : List (List Char × List Char)) (i : Nat)
      (pr : Nat × List Char × List Char × MemberType),
      pr ∈ (scanLinesM cls has tv mems mt pairs i).2 → i < pr.1
  | [], _, _, h => by simp [scanLinesM] at h
  | (o, cl) :: rest, i, pr, h => by
    simp only [scanLinesM, List.mem_append] at h
    rcases h with h | h
    · have := memberHitsOnLine_lines cls has tv mt cl o i mems pr h
      omega
    · exact Nat.lt_of_succ_lt (scanLinesM_hits_lb cls has tv mems mt rest (i + 1) pr h)

theorem scanLinesM_hits_sorted (cls : List Char) (has : Bool)
    (tv : List (List Char)) (mems : List (List Char)) (mt : MemberType) :
    ∀ (pairs : List (List Char × List Char)) (i : Nat),
      ((scanLinesM cls has tv mems mt pairs i).2).Pairwise (fun a b => a.1 ≤ b.1)
  | [], _ => by simp [scanLinesM]
  | (o, cl) :: rest, i => by
    have ih := scanLinesM_hits_sorted cls has tv mems mt rest (i + 1)
    simp only [scanLinesM]
    rw [List.pairwise_append]
    refine ⟨memberHitsOnLine_sorted cls has tv mt cl o i mems, ih, ?_⟩
    intro a ha b hb
    have h1 := memberHitsOnLine_lines cls has tv mt cl o i mems a ha
    have h2 := scanLinesM_hits_lb cls has tv mems mt rest (i + 1) b hb
    omega

/-! ## C2: the simple-name counts follow the Scope Filter decision table -/

/-- C2 (confirmed).  In class mode the per-file total decomposes line by
line into the import/FQN category counts plus the simple-name category
counts retained exactly as the spec's Scope Filter decision table
prescribes: zeroed when `strictImport` is set and the file has no
import/FQN reference (regardless of `samePackageOk`); zeroed when there is
no import/FQN reference, `strictImport` is false, `samePackageOk` is false
and the file package differs from the target package; retained in every
other case, in particular for a file in the target package with
`strictImport` false and no import. -/
theorem scan_file_for_usage_follows_scope_table (content : List Char)
    (p : ClassPatterns) (samePkgOk : Bool) (targetPkg : List Char)
    (strictImport : Bool) :
    (scan_file_for_usage content p samePkgOk targetPkg strictImport).1 =
      (((splitlines content).zip
          (splitlines (strip_comments_and_strings content))).map
        (fun pr =>
          importCnt p pr.2 +
            if scopeTableRetain strictImport
                (hasImportOrFqn p (strip_comments_and_strings content)) samePkgOk
                (filePackageOf content == targetPkg)
              then simpleCnt p pr.2 else 0)).sum := by
  simp only [scan_file_for_usage, scanLinesU_total, lineMatchCount,
    applyScopeFilter_eq_table]

/-! ## C4: count composition -/

/-- C4 (corrected), the part that holds: `totalMatchCount` equals the sum
over the zipped lines of the per-line retained category counts (the three
import/FQN counts plus the scope-filtered sum of the six simple-name
counts). -/
theorem totalMatchCount_eq_sum_of_line_counts (content : List Char)
    (p : ClassPatterns) (samePkgOk : Bool) (targetPkg : List Char)
    (strictImport : Bool) :
    (scan_file_for_usage content p samePkgOk targetPkg strictImport).1 =
      (((splitlines content).zip
          (splitlines (strip_comments_and_strings content))).map
        (fun pr =>
          (rxCount p.importFqn pr.2 + rxCount p.importCls pr.2 +
            rxCount p.directFqn pr.2) +
          applyScopeFilter strictImport samePkgOk
            (hasImportOrFqn p (strip_comments_and_strings content))
            (filePackageOf content) targetPkg
            (rxCount p.ctorP pr.2 + rxCount p.typeAnnotP pr.2 +
              rxCount p.genericP pr.2 + rxCount p.annotP pr.2 +
              rxCount p.instChk pr.2 + rxCount p.simpleName pr.2))).sum := by
  simp only [scan_file_for_usage, scanLinesU_total, lineMatchCount, importCnt,
    simpleCnt]

/-- C4 (corrected), the counterexample: on the line `Foo()` the single
occurrence of the token `Foo` is counted by both the Constructor and the
SimpleName categories, so a file consisting of that line scans to a total
of 2 although the class name occurs once. -/
theorem ctor_and_simpleName_both_count_single_token :
    rxCount fooPatterns.ctorP ("Foo()".data) = 1 ∧
    rxCount fooPatterns.simpleName ("Foo()".data) = 1 ∧
    (scan_file_for_usage ("Foo()".data) fooPatterns true ("com.ex".data)
        false).1 = 2 := by
  refine ⟨by decide, by decide, by decide⟩

/-! ## C8: read failure gives zero matches and never aborts the run -/

/-- C8 (confirmed).  A file whose read fails scans to `(0, [], None)` in
both engines, and in the orchestrator a failed file contributes nothing
while the other files' results are exactly what they would be without it. -/
theorem read_failure_yields_zero_and_isolated (p : ClassPatterns)
    (samePkgOk : Bool) (targetPkg : List Char) (strictImport : Bool)
    (cls fqn : List Char) (mems : List (List Char)) (mt : MemberType)
    (xs ys : List (Option (List Char))) :
    scanFileForUsageRead none p samePkgOk targetPkg strictImport = (0, [], none) ∧
    scanFileForMemberRead none cls fqn mems mt samePkgOk targetPkg strictImport =
      (0, [], none) ∧
    runScan (xs ++ none :: ys) p samePkgOk targetPkg strictImport =
      runScan xs p samePkgOk targetPkg strictImport ++
        runScan ys p samePkgOk targetPkg strictImport := by
  refine ⟨rfl, rfl, ?_⟩
  simp [runScan, List.filterMap_append, scanFileTask, scanFileForUsageRead]

/-! ## C9: ordering of hit records -/

/-- C9 (corrected), the part that holds: both pattern-engine scans return
hit lists ordered by non-decreasing line number, in class mode and in
member mode. -/
theorem regex_hits_ordered_by_line (content : List Char) (p : ClassPatterns)
    (samePkgOk : Bool) (targetPkg cls fqn : List Char) (strictImport : Bool)
    (mems : List (List Char)) (mt : MemberType) :
    ((scan_file_for_usage content p samePkgOk targetPkg strictImport).2.1).Pairwise
        (fun a b => a.1 ≤ b.1) ∧
    ((scan_file_for_member_usage content cls fqn mems mt samePkgOk targetPkg
        strictImport).2.1).Pairwise (fun a b => a.1 ≤ b.1) := by
  constructor
  · exact scanLinesU_hits_sorted _ _ _ _ _ _ _ 0
  · simp only [scan_file_for_member_usage]
    split
    · simp
    · split
      · simp
      · exact scanLinesM_hits_sorted _ _ _ _ _ _ 0

/-- C9 (corrected), the counterexample: the Tree-sitter engine concatenates
its hits by category (declarations, constructor calls, annotations, type
references); with a constructor-call capture on line 2 and a type-reference
capture on line 1 the returned hit list has line numbers `[2, 1]`, which is
not ordered by ascending line number. -/
theorem ast_hits_not_ordered_by_line :
    ((scan_file_ast (some ("p".data)) [(("Foo".data), ("com.ex.Foo".data))]
        [] [⟨2, 0, ("Foo".data)⟩] [] [⟨1, 0, ("Foo".data)⟩]
        ("Foo".data) ("com.ex.Foo".data) false ("com.ex".data) false).2.2.map
      (fun h => h.line)) = [2, 1] ∧
    ¬ (((scan_file_ast (some ("p".data)) [(("Foo".data), ("com.ex.Foo".data))]
        [] [⟨2, 0, ("Foo".data)⟩] [] [⟨1, 0, ("Foo".data)⟩]
        ("Foo".data) ("com.ex.Foo".data) false ("com.ex".data) false).2.2).Pairwise
      (fun a b => a.line ≤ b.line)) := by
  exact ⟨by decide, by decide⟩

/-! ## C5: member-mode dot-access disambiguation -/

/-- C5 (corrected), the part that holds.  On any clean line, when at least
one variable typed as the target class was detected in the file and no
typed variable's qualified access, no `CLS.member` static access and no
import/FQN reference confirms the line, the `dot_access`/`this_access`
categories contribute nothing (second conjunct).  But when **no** typed
variable was detected anywhere in the file, every bare dot/this access is
retained unconditionally (first conjunct) — which is what the
counterexample exploits. -/
theorem dot_access_gating (cls member cl : List Char) (has : Bool)
    (tv : List (List Char)) :
    (memberLineCount cls has [] member .field cl =
      rxCount (dotAccessRx member) cl + rxCount (thisAccessRx member) cl +
        rxCount (refRx member) cl + rxCount (namedArgRx member) cl) ∧
    (tv ≠ [] → (∀ v ∈ tv, rxHas (qualifiedRx v member) cl = false) →
      rxHas (staticRx cls member) cl = false →
      memberLineCount cls false tv member .field cl =
        rxCount (refRx member) cl + rxCount (namedArgRx member) cl) := by
  have step : ∀ (a m : Nat), (if 0 < m then a + m else a) = a + m := by
    intro a m; split <;> omega
  constructor
  · simp [memberLineCount, build_member_patterns, step]
  · intro htv hq hs
    have hne : tv.isEmpty = false := by
      cases tv with
      | nil => exact absurd rfl htv
      | cons a l => rfl
    have hfind : tv.find? (fun v => rxHas (qualifiedRx v member) cl) = none := by
      rw [List.find?_eq_none]
      intro v hv
      simp [hq v hv]
    have hdot : dotAdd cls member false tv cl (rxCount (dotAccessRx member) cl) = 0 := by
      simp [dotAdd, hfind, hs]
    have hthis : dotAdd cls member false tv cl (rxCount (thisAccessRx member) cl) = 0 := by
      simp [dotAdd, hfind, hs]
    have drop : ∀ (a m : Nat), (if 0 < m then a + 0 else a) = a := by
      intro a m; split <;> omega
    simp [memberLineCount, build_member_patterns, hne, hdot, hthis, step, drop]
    omega

/-- Witness for `dot_access_gating`: with detected typed variable `b`, on
the line `a.name` with no import and no static access, the dot access
contributes nothing. -/
theorem dot_access_gating_witness :
    memberLineCount ("Foo".data) false [("b".data)] ("name".data) .field
        ("a.name".data) =
      rxCount (refRx ("name".data)) ("a.name".data) +
        rxCount (namedArgRx ("name".data)) ("a.name".data) :=
  (dot_access_gating ("Foo".data) ("name".data) ("a.name".data) false
    [("b".data)]).2 (by decide) (by decide) (by decide)

/-- C5 (corrected), the counterexample: member mode `field` for member
`name` of class `Foo` (FQN `com.ex.Foo`), on a file consisting of the line
`unknown.name`.  The file has no import/FQN reference, no typed variable
is detected, the receiver `unknown` is not known to be of type `Foo` and
there is no static `Foo.name` access — yet the bare dot access is counted
and the file reports one match on line 1. -/
theorem bare_dot_access_counted_without_typed_vars :
    (scan_file_for_member_usage ("unknown.name".data) ("Foo".data)
        ("com.ex.Foo".data) [("name".data)] .field false [] false).1 = 1 ∧
    (scan_file_for_member_usage ("unknown.name".data) ("Foo".data)
        ("com.ex.Foo".data) [("name".data)] .field false [] false).2.1 =
      [(1, ("unknown.name".data), ("name".data), .field)] ∧
    hasImportOrFqn fooPatterns ("unknown.name".data) = false ∧
    dedupKeepFirst
      (rxGroups (kotlinTypedRx ("Foo".data)) ("unknown.name".data) ++
        rxGroups (javaTypedRx ("Foo".data)) ("unknown.name".data)) = [] ∧
    rxHas (staticRx ("Foo".data) ("name".data)) ("unknown.name".data) = false := by
  refine ⟨by decide, by decide, by decide, by decide, by decide⟩

/-! ## C6: target resolution -/

/-- C6 (corrected), the part that holds: resolution fails exactly when the
five declaration probes collect no candidate; on success the chosen name is
a collected candidate, it equals the file stem whenever the stem is among
the candidates, and otherwise it is the head of the collected candidate
list — which is ordered probe by probe (all `class` matches first, then
`interface`, `enum`, the sealed/data duplicate, `annotation class`), not in
file order. -/
theorem target_selection (content stem : List Char) :
    (parse_target_metadata content stem =
        .error ("No class/interface/enum declarations found in target file".data) ↔
      candidateNames content = []) ∧
    (∀ pkg name fqn,
      parse_target_metadata content stem = .ok (pkg, name, fqn) →
      name ∈ candidateNames content ∧
      (stem ∈ candidateNames content → name = stem) ∧
      (stem ∉ candidateNames content →
        (candidateNames content).head? = some name) ∧
      pkg = filePackageOf content ∧
      fqn = (if pkg.isEmpty then name else pkg ++ '.' :: name)) := by
  constructor
  · by_cases h : (candidateNames content).isEmpty
    · simp [parse_target_metadata, h, List.isEmpty_iff.mp h]
    · simp only [parse_target_metadata, h, if_false]
      constructor
      · intro hc; exact absurd hc (by simp)
      · intro hc; exact absurd hc (by simpa [List.isEmpty_iff] using h)
  · intro pkg name fqn hok
    unfold parse_target_metadata at hok
    by_cases h : (candidateNames content).isEmpty
    · simp [h] at hok
    · simp only [h, if_false, Except.ok.injEq, Prod.mk.injEq] at hok
      obtain ⟨hpkg, hname, hfqn⟩ := hok
      cases hfind : (candidateNames content).find? (fun n => n == stem) with
      | some v =>
        have hv : v ∈ candidateNames content := List.mem_of_find?_eq_some hfind
        have hvs : v = stem := by
          have := List.find?_some hfind
          simpa using this
        subst hvs
        simp [pickName, hfind, hv]
      | none =>
        have hnot : stem ∉ candidateNames content := by
          intro hmem
          have := List.find?_eq_none.mp hfind stem hmem
          simp at this
        refine ⟨?_, ?_, ?_, rfl, rfl⟩
        · cases hcn : candidateNames content with
          | nil => simp [hcn, List.isEmpty_iff] at h
          | cons n rest =>
            simp only [hcn] at hfind ⊢
            simp [pickName, hfind]
        · intro hmem; exact absurd hmem hnot
        · intro _
          cases hcn : candidateNames content with
          | nil => simp [hcn, List.isEmpty_iff] at h
          | cons n rest =>
            simp only [hcn] at hfind ⊢
            simp [pickName, hfind]

/-- Witness for `target_selection`: a target file `class Ball` with stem
`Ball` resolves to the stem candidate. -/
theorem target_selection_witness :
    ("Ball".data) ∈ candidateNames ("class Ball".data) ∧
    ("Ball".data) = ("Ball".data) := by
  have h := (target_selection ("class Ball".data) ("Ball".data)).2
    [] ("Ball".data) ("Ball".data) (by decide)
  exact ⟨h.1, h.2.1 (by decide)⟩

/-- C6 (corrected), the counterexample: in `interface A` followed by
`class B`, the declaration `interface A` comes first in the file, the stem
`X` matches neither candidate, yet resolution returns `B`: the candidate
list is collected probe by probe (`class` probes before the `interface`
probe), so the "first" candidate is not the first declared in the file. -/
theorem target_selection_not_first_declared :
    candidateNames ("interface A\nclass B".data) =
      [("B".data), ("A".data), ("B".data)] ∧
    parse_target_metadata ("interface A\nclass B".data) ("X".data) =
      .ok ([], ("B".data), ("B".data)) := by
  refine ⟨by decide, by decide⟩

/-! ## C7: member extraction scope -/

theorem mem_insertSorted (x a : List Char) (l : List (List Char)) :
    x ∈ insertSorted a l ↔ x = a ∨ x ∈ l := by
  induction l with
  | nil => simp [insertSorted]
  | cons y ys ih =>
    simp only [insertSorted]
    split
    · simp
    · simp [ih]
      tauto

theorem mem_sortStrs (x : List Char) (l : List (List Char)) :
    x ∈ sortStrs l ↔ x ∈ l := by
  induction l with
  | nil => simp [sortStrs]
  | cons y ys ih => simp [sortStrs, mem_insertSorted, ih]

theorem mem_dedupAux [DecidableEq α] (x : α) :
    ∀ (l seen : List α), x ∈ dedupAux l seen → x ∈ l
  | [], _, h => by simp [dedupAux] at h
  | a :: as, seen, h => by
    simp only [dedupAux] at h
    split at h
    · exact List.mem_cons_of_mem a (mem_dedupAux x as seen h)
    · rcases List.mem_cons.mp h with h | h
      · exact h ▸ List.mem_cons_self a as
      · exact List.mem_cons_of_mem a (mem_dedupAux x as (a :: seen) h)

theorem mem_dedupKeepFirst [DecidableEq α] (x : α) (l : List α) :
    x ∈ dedupKeepFirst l → x ∈ l :=
  mem_dedupAux x l []

/-- C7 (corrected), the part that holds: every method name in the
inventory is the capture of a Kotlin `fun` or Java method declaration
pattern somewhere in the **whole** stripped file (not restricted to the
chosen class's scope), and is neither the class's own name (constructors
are skipped) nor a control keyword. -/
theorem member_extraction_whole_file (content cls m : List Char)
    (hm : m ∈ (parse_target_members content cls).2) :
    (m ∈ rxGroups kotlinFunRx (strip_comments_and_strings content) ∨
      m ∈ rxGroups javaMethodRx (strip_comments_and_strings content)) ∧
    m ≠ cls ∧ m ∉ methodSkip := by
  unfold parse_target_members at hm
  simp only at hm
  have hm2 := mem_dedupKeepFirst _ _ ((mem_sortStrs _ _).mp hm)
  have := List.mem_filter.mp hm2
  obtain ⟨hmem, hcond⟩ := this
  simp only [Bool.not_eq_true', Bool.or_eq_false_iff, beq_eq_false_iff_ne,
    ne_eq] at hcond
  refine ⟨List.mem_append.mp hmem, hcond.1, ?_⟩
  simpa using hcond.2

/-- Witness for `member_extraction_whole_file` at the C7 counterexample
file: `draw` is in the inventory and indeed comes from a `fun` pattern
capture. -/
theorem member_extraction_whole_file_witness :
    (("draw".data) ∈ rxGroups kotlinFunRx (strip_comments_and_strings c7file) ∨
      ("draw".data) ∈ rxGroups javaMethodRx (strip_comments_and_strings c7file)) ∧
    ("draw".data) ≠ ("Foo".data) ∧ ("draw".data) ∉ methodSkip :=
  member_extraction_whole_file c7file ("Foo".data) ("draw".data) (by decide)

/-- C7 (corrected), the counterexample: in `c7file` the only function
declaration, `fun draw()`, is lexically inside `interface Z` — a different
top-level declaration than the chosen `class Foo`, whose scope is the empty
brace pair on line 1 — yet member extraction for `Foo` returns `draw` in
the method inventory. -/
theorem member_extraction_includes_other_decl :
    parse_target_members c7file ("Foo".data) = ([], [("draw".data)]) := by
  decide

/-! ## C3, C10: the lexical preprocessor's output shape -/

theorem countNl_scan_le : ∀ (st : LexSt) (cs : List Char),
    countNl (scan st cs) ≤ countNl cs := by
  intro st cs
  induction st, cs using scan.induct <;>
    simp_all [scan, countNl, List.count_cons] <;> omega

theorem countNl_scan_eq : ∀ (st : LexSt) (cs : List Char), nlSafe st cs = true →
    countNl (scan st cs) = countNl cs := by
  intro st cs
  induction st, cs using nlSafe.induct
  case case13 head c rest hcon ih =>
    intro h
    by_cases h1 : head = '*'
    · subst h1
      have hc : ¬ c = '/' := fun hcc => hcon rfl hcc
      have h2 : nlSafe .blockC (c :: rest) = true := by
        simpa [nlSafe, hc] using h
      simpa [scan, hc, countNl, List.count_cons] using ih h2
    · by_cases hh : head = '\n'
      · subst hh
        have h2 : nlSafe .blockC (c :: rest) = true := by
          simpa [nlSafe] using h
        simpa [scan, countNl, List.count_cons] using ih h2
      · have h2 : nlSafe .blockC (c :: rest) = true := by
          simpa [nlSafe, h1, hh] using h
        simpa [scan, h1, hh, countNl, List.count_cons] using ih h2
  all_goals ((intro h); simp_all [scan, nlSafe, countNl, List.count_cons])

/-- C3 (corrected), the counterexample: a double-quoted literal spanning a
line break.  The input `"a\nb"` has one line break and two lines; the
preprocessor consumes the line break inside the literal and returns a
single space — one line, zero line breaks — so the output does not have
the same number of lines as the input. -/
theorem strip_drops_newline_in_string :
    strip_comments_and_strings ("\"a\nb\"".data) = (" ".data) ∧
    countNl ("\"a\nb\"".data) = 1 ∧
    countNl (strip_comments_and_strings ("\"a\nb\"".data)) = 0 ∧
    (splitlines ("\"a\nb\"".data)).length = 2 ∧
    (splitlines (strip_comments_and_strings ("\"a\nb\"".data))).length = 1 := by
  refine ⟨by decide, by decide, by decide, by decide, by decide⟩

/-- C3 (corrected), the part that holds: the preprocessor never increases
the number of line breaks, and it preserves the number of line breaks
exactly when no string or character literal consumes one (`nlSafe`), i.e.
when every literal is closed on the line it starts.  Line breaks inside
block comments and at the end of line comments are always preserved;
a line break inside a string/char literal is consumed. -/
theorem strip_newline_preservation (s : List Char) :
    countNl (strip_comments_and_strings s) ≤ countNl s ∧
    (nlSafe .code s = true →
      countNl (strip_comments_and_strings s) = countNl s) :=
  ⟨countNl_scan_le .code s, countNl_scan_eq .code s⟩

/-- Witness for `strip_newline_preservation` on a file with a line comment,
a block comment spanning a line break and a single-line string literal. -/
theorem strip_newline_preservation_witness :
    countNl (strip_comments_and_strings
        ("x = 1 // c\n/* k\n*/ val s = \"ab\"\n".data)) =
      countNl ("x = 1 // c\n/* k\n*/ val s = \"ab\"\n".data) :=
  (strip_newline_preservation ("x = 1 // c\n/* k\n*/ val s = \"ab\"\n".data)).2
    (by decide)

theorem scan_code_cons_head (d : Char) (r : List Char) (hd : ¬ d = '/') :
    (∃ t, scan .code (d :: r) = d :: t) ∨ (∃ t, scan .code (d :: r) = ' ' :: t) := by
  by_cases h1 : d = '"'
  · subst h1; exact Or.inr ⟨scan .dq r, by simp [scan]⟩
  · by_cases h2 : d = '\''
    · subst h2; exact Or.inr ⟨scan .sq r, by simp [scan]⟩
    · exact Or.inl ⟨scan .code r, by simp [scan, hd, h1, h2]⟩

theorem scan_code_scan : ∀ (st : LexSt) (cs : List Char),
    scan .code (scan st cs) = scan st cs := by
  intro st cs
  induction st, cs using scan.induct
  case case6 c rest h1 h2 h3 h4 ih =>
    by_cases hc : c = '/'
    · subst hc
      cases rest with
      | nil => simp [scan]
      | cons d r =>
        have hd : ¬ d = '/' := by
          intro hdd; subst hdd; exact (h1 r rfl) rfl
        have hd2 : ¬ d = '*' := by
          intro hdd; subst hdd; exact (h2 r rfl) rfl
        have hstep : scan .code ('/' :: d :: r) = '/' :: scan .code (d :: r) := by
          simp [scan, hd, hd2]
        rw [hstep]
        rcases scan_code_cons_head d r hd with ⟨t, ht⟩ | ⟨t, ht⟩
        · rw [ht] at ih ⊢
          have hred : scan .code ('/' :: d :: t) = '/' :: scan .code (d :: t) := by
            simp [scan, hd, hd2]
          rw [hred, ih]
        · rw [ht] at ih ⊢
          have hsp : scan .code t = t := by simpa [scan] using ih
          simp [scan, hsp]
    · simp [scan, hc, h3, h4, ih]
  all_goals simp_all [scan]

/-- C10 (confirmed): the lexical preprocessor is idempotent — its output
contains no string/char literal openers and no comment openers that the
scanner would act on, so a second pass copies the text unchanged. -/
theorem strip_idempotent (s : List Char) :
    strip_comments_and_strings (strip_comments_and_strings s) =
      strip_comments_and_strings s :=
  scan_code_scan .code s

theorem lineScan_no_nl : ∀ (st : LexSt) (l : List Char), '\n' ∉ l →
    '\n' ∉ (lineScan st l).1 := by
  intro st l
  induction st, l using lineScan.induct <;>
    simp_all [lineScan]

theorem scan_no_nl : ∀ (st : LexSt) (l : List Char), '\n' ∉ l →
    '\n' ∉ scan st l := by
  intro st l
  induction st, l using scan.induct <;>
    simp_all [scan]

theorem stepLine : ∀ (st : LexSt) (l rest : List Char),
    '\n' ∉ l →
    (lineScan st l).2 ≠ .dq → (lineScan st l).2 ≠ .sq →
    scan st (l ++ '\n' :: rest) =
      (lineScan st l).1 ++ '\n' :: scan (nextSt (lineScan st l).2) rest := by
  intro st l rest
  induction st, l using lineScan.induct
  case case1 st =>
    intro hnl hdq hsq
    cases st
    · rfl
    · rfl
    · cases rest <;> rfl
    · exact absurd rfl hdq
    · exact absurd rfl hsq
  case case2 r ih =>
    intro hnl hdq hsq
    exact ih (fun h => hnl (List.mem_cons_of_mem _ (List.mem_cons_of_mem _ h))) hdq hsq
  case case3 r ih =>
    intro hnl hdq hsq
    exact ih (fun h => hnl (List.mem_cons_of_mem _ (List.mem_cons_of_mem _ h))) hdq hsq
  case case4 r ih =>
    intro hnl hdq hsq
    exact congrArg (fun x => ' ' :: x)
      (ih (fun h => hnl (List.mem_cons_of_mem _ h)) hdq hsq)
  case case5 r ih =>
    intro hnl hdq hsq
    exact congrArg (fun x => ' ' :: x)
      (ih (fun h => hnl (List.mem_cons_of_mem _ h)) hdq hsq)
  case case6 c r h1 h2 h3 h4 ih =>
    intro hnl hdq hsq
    have hnr : '\n' ∉ r := fun h => hnl (List.mem_cons_of_mem _ h)
    have hc : ¬ c = '/' ∨ True := Or.inr trivial
    by_cases hcs : c = '/'
    · subst hcs
      cases r with
      | nil => rfl
      | cons d r' =>
        have hd1 : ¬ d = '/' := fun h => h1 r' rfl (by rw [h])
        have hd2 : ¬ d = '*' := fun h => h2 r' rfl (by rw [h])
        have hred : scan .code ('/' :: d :: (r' ++ '\n' :: rest)) =
            '/' :: scan .code (d :: (r' ++ '\n' :: rest)) := by
          simp [scan, hd1, hd2]
        have hl : lineScan .code ('/' :: d :: r') =
            ('/' :: (lineScan .code (d :: r')).1, (lineScan .code (d :: r')).2) := by
          simp [lineScan, hd1, hd2]
        have hih := ih hnr (by rw [hl] at hdq; exact hdq) (by rw [hl] at hsq; exact hsq)
        simp only [List.cons_append] at hih
        simp only [List.cons_append, hred, hl]
        rw [hih]
    · have hred : scan .code (c :: (r ++ '\n' :: rest)) =
          c :: scan .code (r ++ '\n' :: rest) := by
        simp [scan, hcs, h3, h4]
      have hl : lineScan .code (c :: r) =
          (c :: (lineScan .code r).1, (lineScan .code r).2) := by
        simp [lineScan, hcs, h3, h4]
      have hih := ih hnr (by rw [hl] at hdq; exact hdq) (by rw [hl] at hsq; exact hsq)
      simp only [List.cons_append, hred, hl]
      rw [hih]
  case case7 c r ih =>
    intro hnl hdq hsq
    have hnr : '\n' ∉ r := fun h => hnl (List.mem_cons_of_mem _ h)
    have hc : ¬ c = '\n' := fun h => hnl (by rw [h]; exact List.mem_cons_self _ _)
    have hred : scan .lineC (c :: (r ++ '\n' :: rest)) =
        scan .lineC (r ++ '\n' :: rest) := by
      simp [scan, hc]
    simp only [List.cons_append, hred]
    exact ih hnr hdq hsq
  case case8 r ih =>
    intro hnl hdq hsq
    exact ih (fun h => hnl (List.mem_cons_of_mem _ (List.mem_cons_of_mem _ h))) hdq hsq
  case case9 c r hcon ih =>
    intro hnl hdq hsq
    have hnr : '\n' ∉ r := fun h => hnl (List.mem_cons_of_mem _ h)
    have hc : ¬ c = '\n' := fun h => hnl (by rw [h]; exact List.mem_cons_self _ _)
    by_cases hs : c = '*'
    · subst hs
      cases r with
      | nil => cases rest <;> rfl
      | cons d r' =>
        have hd : ¬ d = '/' := fun h => hcon r' rfl (by rw [h])
        have hred : scan .blockC ('*' :: d :: (r' ++ '\n' :: rest)) =
            scan .blockC (d :: (r' ++ '\n' :: rest)) := by
          simp [scan, hd]
        have hl : lineScan .blockC ('*' :: d :: r') = lineScan .blockC (d :: r') := by
          simp [lineScan, hd]
        rw [hl] at hdq hsq
        simp only [List.cons_append, hred, hl]
        exact ih hnr hdq hsq
    · cases r with
      | nil =>
        have hred : scan .blockC (c :: '\n' :: rest) = scan .blockC ('\n' :: rest) := by
          simp [scan, hs, hc]
        have hl : lineScan .blockC [c] = ([], .blockC) := by
          simp [lineScan, hs]
        show scan .blockC (c :: '\n' :: rest) = _
        rw [hred, hl]
        cases rest <;> rfl
      | cons d r' =>
        have hred : scan .blockC (c :: d :: (r' ++ '\n' :: rest)) =
            scan .blockC (d :: (r' ++ '\n' :: rest)) := by
          simp [scan, hs, hc]
        have hl : lineScan .blockC (c :: d :: r') = lineScan .blockC (d :: r') := by
          simp [lineScan, hs]
        rw [hl] at hdq hsq
        have hih := ih hnr hdq hsq
        simp only [List.cons_append] at hih
        simp only [List.cons_append, hl]
        rw [hred]
        exact hih
  case case10 r ih =>
    intro hnl hdq hsq
    exact ih (fun h => hnl (List.mem_cons_of_mem _ h)) hdq hsq
  case case11 c r ih =>
    intro hnl hdq hsq
    exact ih (fun h => hnl (List.mem_cons_of_mem _ (List.mem_cons_of_mem _ h))) hdq hsq
  case case12 c r hq hbs ih =>
    intro hnl hdq hsq
    have hnr : '\n' ∉ r := fun h => hnl (List.mem_cons_of_mem _ h)
    by_cases hb : c = '\\'
    · subst hb
      cases r with
      | nil => exact absurd rfl hdq
      | cons d r' => exact absurd rfl (hbs d r' rfl)
    · have hred : scan .dq (c :: (r ++ '\n' :: rest)) = scan .dq (r ++ '\n' :: rest) := by
        simp [scan, hq, hb]
      have hl : lineScan .dq (c :: r) = lineScan .dq r := by
        simp [lineScan, hq, hb]
      rw [hl] at hdq hsq
      simp only [List.cons_append, hred, hl]
      exact ih hnr hdq hsq
  case case13 r ih =>
    intro hnl hdq hsq
    exact ih (fun h => hnl (List.mem_cons_of_mem _ h)) hdq hsq
  case case14 c r ih =>
    intro hnl hdq hsq
    exact ih (fun h => hnl (List.mem_cons_of_mem _ (List.mem_cons_of_mem _ h))) hdq hsq
  case case15 c r hq hbs ih =>
    intro hnl hdq hsq
    have hnr : '\n' ∉ r := fun h => hnl (List.mem_cons_of_mem _ h)
    by_cases hb : c = '\\'
    · subst hb
      cases r with
      | nil => exact absurd rfl hsq
      | cons d r' => exact absurd rfl (hbs d r' rfl)
    · have hred : scan .sq (c :: (r ++ '\n' :: rest)) = scan .sq (r ++ '\n' :: rest) := by
        simp [scan, hq, hb]
      have hl : lineScan .sq (c :: r) = lineScan .sq r := by
        simp [lineScan, hq, hb]
      rw [hl] at hdq hsq
      simp only [List.cons_append, hred, hl]
      exact ih hnr hdq hsq

theorem splitlines_cons (c : Char) (rest : List Char) (hc : ¬ c = '\n') :
    splitlines (c :: rest) = match splitlines rest with
      | [] => [[c]]
      | m :: ms => (c :: m) :: ms := by
  cases rest <;> simp_all [splitlines]

theorem splitlines_append_nl : ∀ (l rest : List Char), '\n' ∉ l →
    splitlines (l ++ '\n' :: rest) = l :: splitlines rest := by
  intro l
  induction l with
  | nil => intro rest h; rfl
  | cons c l' ih =>
    intro rest h
    have hc : ¬ c = '\n' := fun hh => h (by rw [hh]; exact List.mem_cons_self _ _)
    have h' : '\n' ∉ l' := fun hh => h (List.mem_cons_of_mem _ hh)
    simp only [List.cons_append]
    rw [splitlines_cons c _ hc, ih rest h']

theorem splitlines_no_nl : ∀ (l : List Char), '\n' ∉ l →
    splitlines l = if l = [] then [] else [l] := by
  intro l
  induction l with
  | nil => intro h; rfl
  | cons c l' ih =>
    intro h
    have hc : ¬ c = '\n' := fun hh => h (by rw [hh]; exact List.mem_cons_self _ _)
    have h' : '\n' ∉ l' := fun hh => h (List.mem_cons_of_mem _ hh)
    have hthis := ih h'
    rw [splitlines_cons c l' hc]
    by_cases hl : l' = []
    · subst hl; simp at hthis; rw [hthis]; simp
    · simp [hl] at hthis; rw [hthis]; simp

theorem splitlines_ne_nil (c : Char) (rest : List Char) :
    splitlines (c :: rest) ≠ [] := by
  by_cases hc : c = '\n'
  · subst hc; simp [splitlines]
  · rw [splitlines_cons c rest hc]
    cases splitlines rest <;> simp

theorem splitlines_eq_nil_iff (cs : List Char) : splitlines cs = [] ↔ cs = [] := by
  cases cs with
  | nil => simp [splitlines]
  | cons c rest =>
    constructor
    · intro h; exact absurd h (splitlines_ne_nil c rest)
    · intro h; simp at h

theorem noNl_mem_splitlines : ∀ (cs l : List Char), l ∈ splitlines cs → '\n' ∉ l := by
  intro cs
  induction cs with
  | nil => simp [splitlines]
  | cons c rest ih =>
    intro l h
    by_cases hc : c = '\n'
    · subst hc
      simp only [splitlines] at h
      rcases List.mem_cons.mp h with h | h
      · subst h; simp
      · exact ih l h
    · rw [splitlines_cons c rest hc] at h
      cases hsp : splitlines rest with
      | nil =>
        rw [hsp] at h
        simp at h
        subst h
        simp only [List.mem_singleton, List.mem_cons, List.not_mem_nil, or_false]
        exact fun hh => hc hh.symm
      | cons m ms =>
        rw [hsp] at h
        rcases List.mem_cons.mp h with h | h
        · subst h
          intro hmem
          rcases List.mem_cons.mp hmem with hh | hh
          · exact hc hh.symm
          · exact ih m (by rw [hsp]; exact List.mem_cons_self _ _) hh
        · exact ih l (by rw [hsp]; exact List.mem_cons_of_mem _ h)

theorem exists_nl_split : ∀ (cs : List Char), '\n' ∈ cs →
    ∃ l rest, cs = l ++ '\n' :: rest ∧ '\n' ∉ l := by
  intro cs
  induction cs with
  | nil => intro h; simp at h
  | cons c cs' ih =>
    intro h
    by_cases hc : c = '\n'
    · subst hc; exact ⟨[], cs', rfl, by simp⟩
    · have : '\n' ∈ cs' := by
        rcases List.mem_cons.mp h with hh | hh
        · exact absurd hh.symm hc
        · exact hh
      obtain ⟨l, rest, heq, hl⟩ := ih this
      refine ⟨c :: l, rest, by rw [heq]; rfl, ?_⟩
      intro hmem
      rcases List.mem_cons.mp hmem with hh | hh
      · exact hc hh.symm
      · exact hl hh

theorem endsNl_append_nl (l rest : List Char) :
    endsNl (l ++ '\n' :: rest) = if rest = [] then true else endsNl rest := by
  rw [endsNl, List.getLast?_append_cons]
  cases rest with
  | nil => rfl
  | cons x xs => rw [List.getLast?_cons_cons]; rfl

theorem endsNl_of_no_nl (cs : List Char) (h : '\n' ∉ cs) : endsNl cs = false := by
  rw [endsNl]
  cases hl : cs.getLast? with
  | none => rfl
  | some c =>
    have hmem : c ∈ cs := List.mem_of_mem_getLast? hl
    have hc : ¬ c = '\n' := fun hh => h (hh ▸ hmem)
    split <;> simp_all

theorem scan_splitlines_aligned : ∀ (n : Nat) (st : LexSt) (cs : List Char),
    cs.length ≤ n →
    linesSafe st (splitlines cs) = true →
    splitlines (scan st cs) = stripLines st (splitlines cs) (endsNl cs) := by
  intro n
  induction n with
  | zero =>
    intro st cs hlen hsafe
    have : cs = [] := List.eq_nil_of_length_eq_zero (Nat.le_zero.mp hlen)
    subst this
    cases st <;> rfl
  | succ n ih =>
    intro st cs hlen hsafe
    by_cases hnl : '\n' ∈ cs
    · obtain ⟨l, rest, rfl, hlnl⟩ := exists_nl_split cs hnl
      rw [splitlines_append_nl l rest hlnl] at hsafe ⊢
      have hparts : ((lineScan st l).2 = LexSt.dq ∨ (lineScan st l).2 = LexSt.sq → False) ∧
          linesSafe (nextSt (lineScan st l).2) (splitlines rest) = true := by
        simp only [linesSafe, Bool.and_eq_true, Bool.not_eq_true',
          Bool.or_eq_false_iff] at hsafe
        constructor
        · intro h
          rcases h with h | h
          · rw [h] at hsafe; simp at hsafe
          · rw [h] at hsafe; simp at hsafe
        · exact hsafe.2
      have hdq : (lineScan st l).2 ≠ .dq := fun h => hparts.1 (Or.inl h)
      have hsq : (lineScan st l).2 ≠ .sq := fun h => hparts.1 (Or.inr h)
      rw [stepLine st l rest hlnl hdq hsq]
      rw [splitlines_append_nl _ _ (lineScan_no_nl st l hlnl)]
      have hlen' : rest.length ≤ n := by
        simp [List.length_append] at hlen
        omega
      rw [ih (nextSt (lineScan st l).2) rest hlen' hparts.2]
      rw [endsNl_append_nl]
      cases hrest : splitlines rest with
      | nil =>
        have hre : rest = [] := (splitlines_eq_nil_iff rest).mp hrest
        subst hre
        simp [stripLines]
      | cons m ms =>
        have hre : rest ≠ [] := by
          intro h; subst h; simp [splitlines] at hrest
        simp only [hre, if_false]
        rfl
    · have hsp := splitlines_no_nl cs hnl
      by_cases hcs : cs = []
      · subst hcs; cases st <;> rfl
      · rw [hsp]
        simp only [hcs, if_false]
        rw [endsNl_of_no_nl cs hnl]
        rfl

theorem space_not_special (c : Char) (h : isSpaceCh c = true) :
    ¬ c = '/' ∧ ¬ c = '"' ∧ ¬ c = '\'' ∧ ¬ c = '*' ∧ ¬ c = '\\' := by
  simp [isSpaceCh] at h
  rcases h with ((((h | h) | h) | h) | h) | h <;> subst h <;> decide

theorem lineScan_lineC_out : ∀ (r : List Char), (lineScan .lineC r).1 = [] := by
  intro r
  induction r with
  | nil => rfl
  | cons c r' ih => simpa [lineScan] using ih

theorem lineScan_code_ws : ∀ (r : List Char), r.all isSpaceCh = true →
    (lineScan .code r).1.all isSpaceCh = true := by
  intro r
  induction r with
  | nil => intro h; rfl
  | cons c r' ih =>
    intro h
    simp only [List.all_cons, Bool.and_eq_true] at h
    have hsp := h.1
    obtain ⟨hns, hnq, hnsq, _, _⟩ := space_not_special c hsp
    have hred : lineScan .code (c :: r') =
        (c :: (lineScan .code r').1, (lineScan .code r').2) := by
      simp [lineScan, hns, hnq, hnsq]
    rw [hred]
    simp [hsp, ih h.2]

theorem lineScan_dq_close : ∀ (r rest : List Char), dqClose r = some rest →
    lineScan .dq r = lineScan .code rest := by
  intro r
  induction r using dqClose.induct with
  | case1 => intro rest h; simp [dqClose] at h
  | case2 r' =>
    intro rest h
    simp only [dqClose, Option.some.injEq] at h
    subst h
    rfl
  | case3 c r' ih =>
    intro rest h
    simp only [dqClose] at h
    exact ih rest h
  | case4 c r' hq hbs ih =>
    intro rest h
    rw [show dqClose (c :: r') = dqClose r' from by
      cases r' <;> simp_all [dqClose]] at h
    have hred : lineScan .dq (c :: r') = lineScan .dq r' := by
      by_cases hb : c = '\\'
      · subst hb
        cases r' with
        | nil => simp [dqClose] at h
        | cons d r'' => exact absurd rfl (hbs d r'' rfl)
      · simp [lineScan, hq, hb]
    rw [hred]
    exact ih rest h

theorem lineScan_sq_close : ∀ (r rest : List Char), sqClose r = some rest →
    lineScan .sq r = lineScan .code rest := by
  intro r
  induction r using sqClose.induct with
  | case1 => intro rest h; simp [sqClose] at h
  | case2 r' =>
    intro rest h
    simp only [sqClose, Option.some.injEq] at h
    subst h
    rfl
  | case3 c r' ih =>
    intro rest h
    simp only [sqClose] at h
    exact ih rest h
  | case4 c r' hq hbs ih =>
    intro rest h
    rw [show sqClose (c :: r') = sqClose r' from by
      cases r' <;> simp_all [sqClose]] at h
    have hred : lineScan .sq (c :: r') = lineScan .sq r' := by
      by_cases hb : c = '\\'
      · subst hb
        cases r' with
        | nil => simp [sqClose] at h
        | cons d r'' => exact absurd rfl (hbs d r'' rfl)
      · simp [lineScan, hq, hb]
    rw [hred]
    exact ih rest h

theorem lineScan_blk_close : ∀ (r rest : List Char), blkClose r = some rest →
    lineScan .blockC r = lineScan .code rest := by
  intro r
  induction r using blkClose.induct with
  | case1 => intro rest h; simp [blkClose] at h
  | case2 r' =>
    intro rest h
    simp only [blkClose, Option.some.injEq] at h
    subst h
    rfl
  | case3 c r' hcon ih =>
    intro rest h
    rw [show blkClose (c :: r') = blkClose r' from by
      cases r' <;> simp_all [blkClose]] at h
    have hred : lineScan .blockC (c :: r') = lineScan .blockC r' := by
      by_cases hs : c = '*'
      · subst hs
        cases r' with
        | nil => simp [blkClose] at h
        | cons d r'' =>
          have hd : ¬ d = '/' := fun hh => hcon r'' rfl (by rw [hh])
          simp [lineScan, hd]
      · simp [lineScan, hs]
    rw [hred]
    exact ih rest h

theorem trivia_elim (l : List Char) (h : triviaLine l = true) :
    ∃ w r, l = w ++ r ∧ w.all isSpaceCh = true ∧ (
      (∃ t, r = '/' :: '/' :: t) ∨
      (∃ t rest, r = '/' :: '*' :: t ∧ blkClose t = some rest ∧
        rest.all isSpaceCh = true) ∨
      (∃ t rest, r = '"' :: t ∧ dqClose t = some rest ∧
        rest.all isSpaceCh = true) ∨
      (∃ t rest, r = '\'' :: t ∧ sqClose t = some rest ∧
        rest.all isSpaceCh = true)) := by
  refine ⟨l.takeWhile isSpaceCh, l.dropWhile isSpaceCh,
    (List.takeWhile_append_dropWhile _ _).symm, ?_, ?_⟩
  · exact List.all_eq_true.mpr (fun x hx => List.mem_takeWhile_imp hx)
  · rw [triviaLine] at h
    split at h
    · next t heq => exact Or.inl ⟨t, heq⟩
    · next t heq =>
      split at h
      · next rest hbk => exact Or.inr (Or.inl ⟨t, rest, heq, hbk, h⟩)
      · exact absurd h (by simp)
    · next t heq =>
      split at h
      · next rest hdq => exact Or.inr (Or.inr (Or.inl ⟨t, rest, heq, hdq, h⟩))
      · exact absurd h (by simp)
    · next t heq =>
      split at h
      · next rest hsq => exact Or.inr (Or.inr (Or.inr ⟨t, rest, heq, hsq, h⟩))
      · exact absurd h (by simp)
    · exact absurd h (by simp)

theorem lineScan_code_ws_append : ∀ (w r : List Char), w.all isSpaceCh = true →
    lineScan .code (w ++ r) =
      (w ++ (lineScan .code r).1, (lineScan .code r).2) := by
  intro w
  induction w with
  | nil => intro r _; simp
  | cons c w' ih =>
    intro r hw
    simp only [List.all_cons, Bool.and_eq_true] at hw
    obtain ⟨hns, hnq, hnsq, _, _⟩ := space_not_special c hw.1
    have hred : lineScan .code (c :: (w' ++ r)) =
        (c :: (lineScan .code (w' ++ r)).1, (lineScan .code (w' ++ r)).2) := by
      simp [lineScan, hns, hnq, hnsq]
    simp only [List.cons_append, hred, ih r hw.2]

theorem lineScan_trivia_ws (l : List Char) (h : triviaLine l = true) :
    (lineScan .code l).1.all isSpaceCh = true := by
  obtain ⟨w, r, rfl, hw, hcase⟩ := trivia_elim l h
  rw [lineScan_code_ws_append w r hw]
  simp only [List.all_append, Bool.and_eq_true]
  refine ⟨hw, ?_⟩
  rcases hcase with ⟨t, rfl⟩ | ⟨t, rest, rfl, hbk, hws⟩ |
    ⟨t, rest, rfl, hdq, hws⟩ | ⟨t, rest, rfl, hsq, hws⟩
  · rw [show lineScan .code ('/' :: '/' :: t) = lineScan .lineC t from rfl,
      lineScan_lineC_out]
    rfl
  · rw [show lineScan .code ('/' :: '*' :: t) = lineScan .blockC t from rfl,
      lineScan_blk_close t rest hbk]
    exact lineScan_code_ws rest hws
  · rw [show lineScan .code ('"' :: t) =
      (' ' :: (lineScan .dq t).1, (lineScan .dq t).2) from rfl,
      lineScan_dq_close t rest hdq]
    simp only [List.all_cons, Bool.and_eq_true]
    exact ⟨by decide, lineScan_code_ws rest hws⟩
  · rw [show lineScan .code ('\'' :: t) =
      (' ' :: (lineScan .sq t).1, (lineScan .sq t).2) from rfl,
      lineScan_sq_close t rest hsq]
    simp only [List.all_cons, Bool.and_eq_true]
    exact ⟨by decide, lineScan_code_ws rest hws⟩

theorem scan_lineC_out : ∀ (r : List Char), '\n' ∉ r → scan .lineC r = [] := by
  intro r
  induction r with
  | nil => intro _; rfl
  | cons c r' ih =>
    intro h
    simp only [List.mem_cons, not_or] at h
    have hc : ¬ c = '\n' := fun hh => h.1 hh.symm
    have hred : scan .lineC (c :: r') = scan .lineC r' := by
      simp [scan, hc]
    rw [hred]
    exact ih h.2

theorem scan_code_ws : ∀ (w : List Char), w.all isSpaceCh = true →
    scan .code w = w := by
  intro w
  induction w with
  | nil => intro _; rfl
  | cons c w' ih =>
    intro hw
    simp only [List.all_cons, Bool.and_eq_true] at hw
    obtain ⟨hns, hnq, hnsq, _, _⟩ := space_not_special c hw.1
    have hred : scan .code (c :: w') = c :: scan .code w' := by
      simp [scan, hns, hnq, hnsq]
    rw [hred, ih hw.2]

theorem scan_code_ws_append : ∀ (w r : List Char), w.all isSpaceCh = true →
    scan .code (w ++ r) = w ++ scan .code r := by
  intro w
  induction w with
  | nil => intro r _; rfl
  | cons c w' ih =>
    intro r hw
    simp only [List.all_cons, Bool.and_eq_true] at hw
    obtain ⟨hns, hnq, hnsq, _, _⟩ := space_not_special c hw.1
    have hred : scan .code (c :: (w' ++ r)) = c :: scan .code (w' ++ r) := by
      simp [scan, hns, hnq, hnsq]
    simp only [List.cons_append, hred, ih r hw.2]

theorem scan_dq_close : ∀ (t rest : List Char), dqClose t = some rest →
    scan .dq t = scan .code rest := by
  intro t
  induction t using dqClose.induct with
  | case1 => intro rest h; exact absurd h (by simp [dqClose])
  | case2 r =>
    intro rest h
    simp only [dqClose] at h
    cases h
    rfl
  | case3 b r ih =>
    intro rest h
    simp only [dqClose] at h
    exact ih rest h
  | case4 c r hq hbs ih =>
    intro rest h
    cases r with
    | nil => exact absurd h (by simp [dqClose, hq])
    | cons d r' =>
      have hb : ¬ c = '\\' := fun hh => hbs d r' (by rw [hh]) rfl
      have hred : scan .dq (c :: d :: r') = scan .dq (d :: r') := by
        simp [scan, hq, hb]
      have hcl : dqClose (c :: d :: r') = dqClose (d :: r') := by
        simp [dqClose, hq, hb]
      rw [hred]
      exact ih rest (hcl ▸ h)

theorem scan_sq_close : ∀ (t rest : List Char), sqClose t = some rest →
    scan .sq t = scan .code rest := by
  intro t
  induction t using sqClose.induct with
  | case1 => intro rest h; exact absurd h (by simp [sqClose])
  | case2 r =>
    intro rest h
    simp only [sqClose] at h
    cases h
    rfl
  | case3 b r ih =>
    intro rest h
    simp only [sqClose] at h
    exact ih rest h
  | case4 c r hq hbs ih =>
    intro rest h
    cases r with
    | nil => exact absurd h (by simp [sqClose, hq])
    | cons d r' =>
      have hb : ¬ c = '\\' := fun hh => hbs d r' (by rw [hh]) rfl
      have hred : scan .sq (c :: d :: r') = scan .sq (d :: r') := by
        simp [scan, hq, hb]
      have hcl : sqClose (c :: d :: r') = sqClose (d :: r') := by
        simp [sqClose, hq, hb]
      rw [hred]
      exact ih rest (hcl ▸ h)

theorem scan_blk_close : ∀ (t rest : List Char), '\n' ∉ t →
    blkClose t = some rest → scan .blockC t = scan .code rest := by
  intro t
  induction t using blkClose.induct with
  | case1 => intro rest _ h; simp [blkClose] at h
  | case2 r' =>
    intro rest _ h
    simp only [blkClose, Option.some.injEq] at h
    subst h
    rfl
  | case3 c r' hcon ih =>
    intro rest hnl h
    simp only [List.mem_cons, not_or] at hnl
    have hcnl : ¬ c = '\n' := fun hh => hnl.1 hh.symm
    rw [show blkClose (c :: r') = blkClose r' from by
      cases r' <;> simp_all [blkClose]] at h
    cases r' with
    | nil => simp [blkClose] at h
    | cons d r'' =>
      have hred : scan .blockC (c :: d :: r'') = scan .blockC (d :: r'') := by
        by_cases hs : c = '*'
        · subst hs
          have hd : ¬ d = '/' := fun hh => hcon r'' rfl (by rw [hh])
          simp [scan, hd]
        · simp [scan, hs, hcnl]
      rw [hred]
      exact ih rest hnl.2 h

theorem scan_trivia_ws (l : List Char) (hnl : '\n' ∉ l)
    (h : triviaLine l = true) : (scan .code l).all isSpaceCh = true := by
  obtain ⟨w, r, rfl, hw, hcase⟩ := trivia_elim l h
  rw [scan_code_ws_append w r hw]
  simp only [List.all_append, Bool.and_eq_true]
  refine ⟨hw, ?_⟩
  have hnlr : '\n' ∉ r := fun hm => hnl (List.mem_append_right w hm)
  rcases hcase with ⟨t, rfl⟩ | ⟨t, rest, rfl, hbk, hws⟩ |
    ⟨t, rest, rfl, hdq, hws⟩ | ⟨t, rest, rfl, hsq, hws⟩
  · have hnt : '\n' ∉ t := fun hm => hnlr (by simp [hm])
    rw [show scan .code ('/' :: '/' :: t) = scan .lineC t from rfl,
      scan_lineC_out t hnt]
    rfl
  · have hnt : '\n' ∉ t := fun hm => hnlr (by simp [hm])
    rw [show scan .code ('/' :: '*' :: t) = scan .blockC t from rfl,
      scan_blk_close t rest hnt hbk, scan_code_ws rest hws]
    exact hws
  · rw [show scan .code ('"' :: t) = ' ' :: scan .dq t from rfl,
      scan_dq_close t rest hdq, scan_code_ws rest hws]
    simp only [List.all_cons, Bool.and_eq_true]
    exact ⟨by decide, hws⟩
  · rw [show scan .code ('\'' :: t) = ' ' :: scan .sq t from rfl,
      scan_sq_close t rest hsq, scan_code_ws rest hws]
    simp only [List.all_cons, Bool.and_eq_true]
    exact ⟨by decide, hws⟩

theorem stripLines_ws : ∀ (lines : List (List Char)) (st : LexSt) (b : Bool)
    (i : Nat) (l cl : List Char),
    lines.get? i = some l →
    (∀ m ∈ lines, '\n' ∉ m) →
    entrySt st lines i = .code →
    triviaLine l = true →
    (stripLines st lines b).get? i = some cl →
    cl.all isSpaceCh = true := by
  intro lines
  induction lines with
  | nil => intro st b i l cl hl _ _ _ _; simp at hl
  | cons l0 ls ih =>
    intro st b i l cl hl hmem hentry htr hget
    cases ls with
    | nil =>
      cases i with
      | zero =>
        have hst : st = LexSt.code := hentry
        subst hst
        have hl0 : l0 = l := by simpa using hl
        subst hl0
        have hnl : '\n' ∉ l0 := hmem l0 (by simp)
        cases b with
        | false =>
          have hsnl : '\n' ∉ scan .code l0 := scan_no_nl .code l0 hnl
          have hsp := splitlines_no_nl (scan .code l0) hsnl
          have hget2 : (splitlines (scan .code l0)).get? 0 = some cl := hget
          rw [hsp] at hget2
          by_cases hz : scan .code l0 = []
          · rw [if_pos hz] at hget2
            simp at hget2
          · rw [if_neg hz] at hget2
            have hcl : cl = scan .code l0 := by simpa using hget2.symm
            subst hcl
            exact scan_trivia_ws l0 hnl htr
        | true =>
          rw [show stripLines .code [l0] true = [(lineScan .code l0).1] from rfl]
            at hget
          have hcl : cl = (lineScan .code l0).1 := by simpa using hget.symm
          subst hcl
          exact lineScan_trivia_ws l0 htr
      | succ i' =>
        simp at hl
    | cons l1 ls' =>
      cases i with
      | zero =>
        have hst : st = LexSt.code := hentry
        subst hst
        have hl0 : l0 = l := by simpa using hl
        subst hl0
        rw [show stripLines .code (l0 :: l1 :: ls') b =
            (lineScan .code l0).1 ::
              stripLines (nextSt (lineScan .code l0).2) (l1 :: ls') b from by
          cases b <;> rfl] at hget
        have hcl : cl = (lineScan .code l0).1 := by simpa using hget.symm
        subst hcl
        exact lineScan_trivia_ws l0 htr
      | succ i' =>
        rw [show stripLines st (l0 :: l1 :: ls') b =
            (lineScan st l0).1 ::
              stripLines (nextSt (lineScan st l0).2) (l1 :: ls') b from by
          cases b <;> rfl] at hget
        refine ih (nextSt (lineScan st l0).2) b i' l cl ?_ ?_ ?_ htr ?_
        · simpa using hl
        · intro m hm; exact hmem m (by simp [hm])
        · exact hentry
        · simpa using hget

theorem ws_not_word (c : Char) (h : isSpaceCh c = true) :
    isWordCh c = false ∧ isAlphaU c = false := by
  simp [isSpaceCh] at h
  rcases h with ((((h | h) | h) | h) | h) | h <;> subst h <;> decide

theorem wordAtPos_ws (line : List Char) (hws : line.all isSpaceCh = true)
    (q : Nat) : wordAtPos line q = false := by
  rw [wordAtPos]
  match hg : line.get? q with
  | none => rfl
  | some c =>
    have hc : c ∈ line := List.get?_mem hg
    have := List.all_eq_true.mp hws c hc
    exact (ws_not_word c this).1

theorem boundaryAt_ws (line : List Char) (hws : line.all isSpaceCh = true)
    (q : Nat) : boundaryAt line q = false := by
  rw [boundaryAt, wordAtPos_ws line hws, wordAtPos_ws line hws]
  simp

theorem runs_wsFail (line : List Char) (hws : line.all isSpaceCh = true) :
    ∀ (fuel : Nat) (r : Rx) (pos : Nat), wsFail r = true →
      runs fuel r line pos = [] := by
  intro fuel
  induction fuel with
  | zero => intro r pos _; rfl
  | succ f ih =>
    intro r pos hf
    cases r with
    | eps => simp [wsFail] at hf
    | ch c =>
      rw [runs]
      match hg : line.get? pos with
      | none => rfl
      | some d =>
        have hd : d ∈ line := List.get?_mem hg
        have hsd := List.all_eq_true.mp hws d hd
        have hnc : ¬ d = c := by
          intro hh
          subst hh
          rw [wsFail] at hf
          simp [hsd] at hf
        simp [hnc]
    | cls s =>
      rw [runs]
      match hg : line.get? pos with
      | none => rfl
      | some d =>
        have hd : d ∈ line := List.get?_mem hg
        have hsd := List.all_eq_true.mp hws d hd
        have hns : s.mem d = false := by
          rw [wsFail] at hf
          cases s <;> simp [wsFree] at hf <;> simp [CSpec.mem]
          · exact (ws_not_word d hsd).1
          · exact (ws_not_word d hsd).2
        simp [hns]
    | seq a b =>
      rw [wsFail, Bool.or_eq_true] at hf
      rw [runs]
      rcases hf with hfa | hfb
      · rw [ih a pos hfa]
        rfl
      · rw [List.flatMap_eq_nil_iff]
        intro x _
        rw [ih b x.1 hfb]
        rfl
    | alt a b =>
      rw [wsFail, Bool.and_eq_true] at hf
      rw [runs, ih a pos hf.1, ih b pos hf.2]
      rfl
    | star a => simp [wsFail] at hf
    | opt a => simp [wsFail] at hf
    | grp a =>
      rw [wsFail] at hf
      rw [runs, ih a pos hf]
      rfl
    | bol => simp [wsFail] at hf
    | eol => simp [wsFail] at hf
    | wb =>
      rw [runs, boundaryAt_ws line hws pos]
      rfl

theorem rxCount_wsFail (r : Rx) (line : List Char)
    (hws : line.all isSpaceCh = true) (hf : wsFail r = true) :
    rxCount r line = 0 := by
  have hfm : firstMatchFrom r line 0 = none := by
    rw [firstMatchFrom, List.findSome?_eq_none_iff]
    intro d _
    rw [matchEndAt, rxRuns, runs_wsFail line hws _ r _ hf]
    rfl
  rw [rxCount, findallCnt, hfm]

theorem wsFail_seqs_cons (a : Rx) (rs : List Rx) :
    wsFail (seqs (a :: rs)) = (wsFail a || wsFail (seqs rs)) := rfl

theorem lineMatchCount_ws (fqn cls : List Char) (strict spo has : Bool)
    (filePkg targetPkg cl : List Char) (hws : cl.all isSpaceCh = true) :
    lineMatchCount (build_patterns fqn cls) strict spo has filePkg targetPkg
      cl = 0 := by
  have hwb : wsFail Rx.wb = true := rfl
  have himf : wsFail (build_patterns fqn cls).importFqn = true := by
    rw [build_patterns, wsFail_seqs_cons, hwb]
    rfl
  have himc : wsFail (build_patterns fqn cls).importCls = true := by
    rw [build_patterns, wsFail_seqs_cons, hwb]
    rfl
  have hdf : wsFail (build_patterns fqn cls).directFqn = true := by
    rw [build_patterns, wsFail_seqs_cons, hwb]
    rfl
  have hct : wsFail (build_patterns fqn cls).ctorP = true := by
    rw [build_patterns, wsFail_seqs_cons, hwb]
    rfl
  have hta : wsFail (build_patterns fqn cls).typeAnnotP = true := by
    rw [build_patterns, wsFail_seqs_cons]
    rfl
  have hgp : wsFail (build_patterns fqn cls).genericP = true := by
    rw [build_patterns, wsFail_seqs_cons]
    rfl
  have hap : wsFail (build_patterns fqn cls).annotP = true := by
    rw [build_patterns, wsFail_seqs_cons]
    rfl
  have hic : wsFail (build_patterns fqn cls).instChk = true := by
    rw [build_patterns, wsFail_seqs_cons, hwb]
    rfl
  have hsn : wsFail (build_patterns fqn cls).simpleName = true := by
    rw [build_patterns, wsFail_seqs_cons, hwb]
    rfl
  have h1 := rxCount_wsFail _ cl hws himf
  have h2 := rxCount_wsFail _ cl hws himc
  have h3 := rxCount_wsFail _ cl hws hdf
  have h4 := rxCount_wsFail _ cl hws hct
  have h5 := rxCount_wsFail _ cl hws hta
  have h6 := rxCount_wsFail _ cl hws hgp
  have h7 := rxCount_wsFail _ cl hws hap
  have h8 := rxCount_wsFail _ cl hws hic
  have h9 := rxCount_wsFail _ cl hws hsn
  rw [lineMatchCount, importCnt, simpleCnt, h1, h2, h3, h4, h5, h6, h7, h8,
    h9]
  rfl

theorem scanLinesU_hits_mem (p : ClassPatterns) (strict spo has : Bool)
    (fp tp : List Char) :
    ∀ (pairs : List (List Char × List Char)) (i : Nat) (pr : Nat × List Char),
      pr ∈ (scanLinesU p strict spo has fp tp pairs i).2 →
      ∃ j orig cl, pairs.get? j = some (orig, cl) ∧ pr.1 = i + j + 1 ∧
        0 < lineMatchCount p strict spo has fp tp cl := by
  intro pairs
  induction pairs with
  | nil => intro i pr h; simp [scanLinesU] at h
  | cons oc rest ih =>
    intro i pr h
    obtain ⟨o, cl⟩ := oc
    simp only [scanLinesU, List.mem_append] at h
    rcases h with h | h
    · by_cases hm : 0 < lineMatchCount p strict spo has fp tp cl
      · rw [if_pos hm] at h
        simp only [List.mem_singleton] at h
        subst h
        exact ⟨0, o, cl, rfl, rfl, hm⟩
      · rw [if_neg hm] at h
        simp at h
    · obtain ⟨j, orig, cl2, hg, hpr, hm⟩ := ih (i + 1) pr h
      refine ⟨j + 1, orig, cl2, by simpa using hg, by omega, hm⟩

theorem zip_get_right : ∀ (l1 l2 : List α) (i : Nat) (a : α) (b : α),
    (l1.zip l2).get? i = some (a, b) →
    l1.get? i = some a ∧ l2.get? i = some b := by
  intro l1
  induction l1 with
  | nil => intro l2 i a b h; simp at h
  | cons x xs ih =>
    intro l2 i a b h
    cases l2 with
    | nil => simp at h
    | cons y ys =>
      cases i with
      | zero =>
        simp only [List.zip_cons_cons, List.get?] at h
        obtain ⟨h1, h2⟩ := Prod.mk.injEq .. ▸ (Option.some.injEq .. ▸ h)
        simp [← h1, ← h2]
      | succ i' =>
        have := ih ys i' a b (by simpa using h)
        simpa using this

/-- C1: under line alignment (no string or character literal spanning a line
break), a line entered in code state that consists solely of a comment or a
string/character literal yields no hit record for its line number. -/
theorem comment_string_line_zero_matches
    (content fqn cls tpkg : List Char) (spo strict : Bool)
    (i : Nat) (l : List Char)
    (hsafe : linesSafe .code (splitlines content) = true)
    (hl : (splitlines content).get? i = some l)
    (hentry : entrySt .code (splitlines content) i = .code)
    (htr : triviaLine l = true) :
    ∀ pr ∈ (scan_file_for_usage content (build_patterns fqn cls) spo tpkg
      strict).2.1, pr.1 ≠ i + 1 := by
  intro pr hpr heq
  simp only [scan_file_for_usage] at hpr
  obtain ⟨j, orig, cl, hg, hpr1, hm⟩ :=
    scanLinesU_hits_mem _ _ _ _ _ _ _ _ pr hpr
  have hj : j = i := by omega
  subst hj
  have hcl : (splitlines (strip_comments_and_strings content)).get? j =
      some cl := (zip_get_right _ _ j orig cl hg).2
  rw [strip_comments_and_strings,
    scan_splitlines_aligned content.length .code content le_rfl hsafe]
    at hcl
  have hws : cl.all isSpaceCh = true :=
    stripLines_ws (splitlines content) .code (endsNl content) j l cl hl
      (fun m hm2 => noNl_mem_splitlines content m hm2) hentry htr hcl
  rw [lineMatchCount_ws fqn cls _ _ _ _ _ cl hws] at hm
  exact absurd hm (by simp)

theorem comment_string_line_zero_matches_witness :
    (2, ("val x = Foo()".data)) ∈ (scan_file_for_usage
      ("// Foo\nval x = Foo()".data) (build_patterns "p.Foo".data "Foo".data)
      false [] false).2.1 ∧ (2 : Nat) ≠ 1 :=
  ⟨by decide,
   comment_string_line_zero_matches ("// Foo\nval x = Foo()".data)
    ("p.Foo".data) ("Foo".data) [] false false 0 ("// Foo".data)
    (by decide) (by decide) rfl (by decide) (2, ("val x = Foo()".data))
    (by decide)⟩

/-- C1 counterexample: a double-quoted string spanning a line break
desynchronises the clean lines, so the comment-only line 3 is charged the
matches of the code line that follows it. -/
theorem comment_line_charged_after_multiline_string :
    triviaLine ("// Foo".data) = true ∧
    (splitlines ("s=\"a\nb\"\n// Foo\nFoo()".data)).get? 2 =
      some ("// Foo".data) ∧
    ∃ pr ∈ (scan_file_for_usage ("s=\"a\nb\"\n// Foo\nFoo()".data)
      (build_patterns "p.Foo".data "Foo".data) false [] false).2.1,
      pr.1 = 3 := by
  refine ⟨by decide, by decide, ?_⟩
  rw [show (scan_file_for_usage ("s=\"a\nb\"\n// Foo\nFoo()".data)
      (build_patterns "p.Foo".data "Foo".data) false [] false) =
    (2, [(3, ("// Foo".data))], []) from rfl]
  exact ⟨(3, ("// Foo".data)), by simp, rfl⟩

end Nobi
